import Mathlib

/-!
# Verification of the GitHub-API-Metrics backend metric calculators

Shallow embedding, in Lean 4, of the pure computational cores of the
repository's metric calculators, pagination loops and HTTP retry loops,
together with theorems settling the specification's claims about them.

Conventions of the embedding:
* Python floats become `ℚ` (the arithmetic involved is exact on rationals).
* Python `dict` / `collections.Counter` accumulators become association
  lists (`List (key × value)`) with lookup / increment helpers that keep
  keys unique, mirroring insertion order.
* GitHub timestamp strings are represented in already-parsed form as a
  `DateTime` record; `datetime` subtraction and comparison are modelled
  through `epochSeconds` (seconds since 1970-01-01T00:00:00, proleptic
  Gregorian calendar), which is exactly how Python's `datetime` compares
  and subtracts aware/naive UTC instants.
* Fallible HTTP calls become `Except`-valued response sequences supplied
  as a function argument; unbounded `while True` loops are modelled with
  an explicit fuel argument, where returning `none` means the loop is
  still running after `fuel` iterations.
-/

namespace RepoMetrics

/-! ## Calendar arithmetic (models Python `datetime` behaviour)

`rataDie` is the standard civil-from-days day count (days since
0000-03-01 of the proleptic Gregorian calendar); `1970-01-01` is day
719468.  Valid for years ≥ 1. -/

structure DateTime where
  year : ℕ
  month : ℕ
  day : ℕ
  hour : ℕ
  minute : ℕ
  second : ℕ
deriving Repr, DecidableEq

def rataDie (y m d : ℕ) : ℕ :=
  let y' := if m ≤ 2 then y - 1 else y
  let m' := if m ≤ 2 then m + 9 else m - 3
  365 * y' + y' / 4 - y' / 100 + y' / 400 + (153 * m' + 2) / 5 + (d - 1)

/-- Seconds since the Unix epoch; the order/difference structure of
Python `datetime` values (UTC). -/
def epochSeconds (dt : DateTime) : ℤ :=
  ((rataDie dt.year dt.month dt.day : ℤ) - 719468) * 86400
    + dt.hour * 3600 + dt.minute * 60 + dt.second

/-- ISO weekday, Monday = 1 .. Sunday = 7, of a rata-die day number. -/
def isoWeekday (rd : ℕ) : ℕ := (rd + 2) % 7 + 1

/-- Number of ISO weeks (52 or 53) in a given year. -/
def isoWeeksInYear (y : ℕ) : ℕ :=
  let p := fun yy : ℕ => (yy + yy / 4 - yy / 100 + yy / 400) % 7
  if p y = 4 ∨ p (y - 1) = 3 then 53 else 52

/-- `d.isocalendar()[1]` of Python: the ISO-8601 week number of a civil
date. -/
def isoWeekNumber (y m d : ℕ) : ℕ :=
  let doy := rataDie y m d - rataDie y 1 1 + 1
  let wd := isoWeekday (rataDie y m d)
  let w := (10 + doy - wd) / 7
  if w = 0 then isoWeeksInYear (y - 1)
  else if isoWeeksInYear y < w then 1
  else w

/-! ## Association-list counters (model `collections.Counter` /
`defaultdict(int)`) -/

/-- `m[k]`, with the `Counter` convention that a missing key reads 0. -/
def counterGet (m : List (String × ℕ)) (k : String) : ℕ :=
  match m.find? (fun e => e.1 = k) with
  | some e => e.2
  | none => 0

/-- `m[k] += v`: update in place, or append a fresh key (Python dicts
keep insertion order). -/
def counterAdd (m : List (String × ℕ)) (k : String) (v : ℕ) :
    List (String × ℕ) :=
  match m with
  | [] => [(k, v)]
  | e :: rest =>
    if e.1 = k then (e.1, e.2 + v) :: rest else e :: counterAdd rest k v

/-! ## Bus factor
(`src/Rohith/repo_metrics/domain/metrics/bus_factor.py`)

The HTTP pagination that builds the `author_commits` dict is independent
of the arithmetic; the calculators are embedded as functions of the
accumulated `(author, commit_count)` pairs (the dict's `.items()`, hence
distinct authors) and the `threshold_percent` argument. -/

structure ContributorRow where
  author : String
  commits : ℕ
  ownership_percent : ℚ
  cumulative_ownership_percent : ℚ
  in_bus_factor : Bool
deriving Repr, DecidableEq

structure BusFactorDetails where
  total_commits : ℕ
  bus_factor : Option ℕ
  ownership_percent : Option ℚ
  contributors : List ContributorRow
deriving Repr, DecidableEq

/-- `sorted(author_commits.items(), key=lambda x: x[1], reverse=True)`:
stable descending insertion sort on the commit count. -/
def insertByCountDesc (x : String × ℕ) :
    List (String × ℕ) → List (String × ℕ)
  | [] => [x]
  | y :: ys => if x.2 < y.2 then y :: insertByCountDesc x ys else x :: y :: ys

def sortByCountDesc : List (String × ℕ) → List (String × ℕ)
  | [] => []
  | x :: xs => insertByCountDesc x (sortByCountDesc xs)

def totalCommits (author_commits : List (String × ℕ)) : ℕ :=
  (author_commits.map Prod.snd).sum

/-- `x / total * 100`, the ownership percentage of `x` commits. -/
def pct (total x : ℕ) : ℚ := (x : ℚ) / (total : ℚ) * 100

/-- Cumulative commit count of the first `i` contributors of `l`. -/
def prefixCount (l : List (String × ℕ)) (i : ℕ) : ℕ :=
  ((l.take i).map Prod.snd).sum

/-- The `for author, count in sorted_authors` loop of
`calculate_bus_factor_details`, with loop state
`(cumulative_commits, bus_factor, ownership_percent)`. -/
def busWalk (total : ℕ) (threshold_percent : ℚ) :
    List (String × ℕ) → ℕ → ℕ → ℚ → ℕ × ℚ × List ContributorRow
  | [], _, bus_factor, ownership_percent => (bus_factor, ownership_percent, [])
  | (author, count) :: rest, cumulative_commits, bus_factor, ownership_percent =>
    let cumulative_commits' := cumulative_commits + count
    let cumulative_percent := pct total cumulative_commits'
    let percent := pct total count
    if ownership_percent < threshold_percent then
      let r := busWalk total threshold_percent rest cumulative_commits'
        (bus_factor + 1) cumulative_percent
      (r.1, r.2.1,
        ⟨author, count, percent, cumulative_percent, true⟩ :: r.2.2)
    else
      let r := busWalk total threshold_percent rest cumulative_commits'
        bus_factor ownership_percent
      (r.1, r.2.1,
        ⟨author, count, percent, cumulative_percent, false⟩ :: r.2.2)

def calculate_bus_factor_details (author_commits : List (String × ℕ))
    (threshold_percent : ℚ) : BusFactorDetails :=
  let total_commits := totalCommits author_commits
  if total_commits = 0 then
    ⟨0, none, none, []⟩
  else
    let sorted_authors := sortByCountDesc author_commits
    let r := busWalk total_commits threshold_percent sorted_authors 0 0 0
    ⟨total_commits, some r.1, some r.2.1, r.2.2⟩

/-- The loop of `calculate_bus_factor` (the summary variant, which
breaks as soon as the threshold is reached). -/
def busLoop (total : ℕ) (threshold_percent : ℚ) :
    List (String × ℕ) → ℕ → ℕ → ℚ → ℕ × ℚ
  | [], _, bus_factor, ownership_percent => (bus_factor, ownership_percent)
  | (_, count) :: rest, cumulative_commits, bus_factor, _ =>
    let cumulative_commits' := cumulative_commits + count
    let ownership_percent' := pct total cumulative_commits'
    if threshold_percent ≤ ownership_percent' then
      (bus_factor + 1, ownership_percent')
    else
      busLoop total threshold_percent rest cumulative_commits'
        (bus_factor + 1) ownership_percent'

def calculate_bus_factor (author_commits : List (String × ℕ))
    (threshold_percent : ℚ) : Option ℕ × Option ℚ :=
  let total_commits := totalCommits author_commits
  if total_commits = 0 then (none, none)
  else
    let r := busLoop total_commits threshold_percent
      (sortByCountDesc author_commits) 0 0 0
    (some r.1, some r.2)

/-! ## PR merge lead time
(`src/Rohith/repo_metrics/domain/metrics/pr_lead_time.py`) -/

structure LeadTimeStats where
  count : ℕ
  avg_hours : Option ℚ
  median_hours : Option ℚ
  p75_hours : Option ℚ
  p90_hours : Option ℚ
  min_hours : Option ℚ
  max_hours : Option ℚ
deriving Repr, DecidableEq

/-- `_percentile(values_sorted, p)`.  The two list indexings of the
source are total because `0 < p < 100` puts `rank` strictly inside
`[0, n-1]`; they are rendered with `l[i]?` here. -/
def percentileInterp (values_sorted : List ℚ) (p : ℚ) : Option ℚ :=
  if values_sorted.isEmpty then none
  else if p ≤ 0 then values_sorted.head?
  else if 100 ≤ p then values_sorted.getLast?
  else
    let n := values_sorted.length
    if n = 1 then values_sorted.head?
    else
      let rank : ℚ := p / 100 * ((n : ℚ) - 1)
      let low := (⌊rank⌋).toNat
      let high := (⌈rank⌉).toNat
      if low = high then values_sorted[low]?
      else
        let weight : ℚ := rank - (low : ℚ)
        match values_sorted[low]?, values_sorted[high]? with
        | some lo, some hi => some (lo * (1 - weight) + hi * weight)
        | _, _ => none

/-- A pull-request record as `pr_merge_lead_time_hours` reads it:
`pr.get("created_at")` / `pr.get("merged_at")`.  A field that is absent
or not a string (the `isinstance(..., str)` guard) is `none`; a present
timestamp string is carried pre-parsed. -/
structure PullRequest where
  created_at : Option DateTime
  merged_at : Option DateTime
deriving Repr, DecidableEq

def pr_merge_lead_time_hours (pr : PullRequest) : Option ℚ :=
  match pr.created_at, pr.merged_at with
  | some created_at, some merged_at =>
    some (((epochSeconds merged_at - epochSeconds created_at : ℤ) : ℚ) / 3600)
  | _, _ => none

/-- `values.sort()`: stable ascending insertion sort on `ℚ`. -/
def sortValues (l : List ℚ) : List ℚ := l.insertionSort (· ≤ ·)

def pr_merge_lead_time_summary (merged_prs : List PullRequest) :
    LeadTimeStats :=
  let values := sortValues
    ((merged_prs.filterMap pr_merge_lead_time_hours).filter
      (fun lt => !(decide (lt < 0))))
  if values.isEmpty then
    ⟨0, none, none, none, none, none, none⟩
  else
    let count := values.length
    ⟨count,
      some (values.sum / (count : ℚ)),
      percentileInterp values 50,
      percentileInterp values 75,
      percentileInterp values 90,
      values.head?,
      values.getLast?⟩

/-! ## Code churn / hotspots / stale files
(`src/Sujan/src/metrics/code_quality_metrics.py` and
`src/Sujan/src/runners/code_quality_runner.py`) -/

/-- One entry of a commit detail's `files` list. -/
structure FileChange where
  filename : String
  additions : ℕ
  deletions : ℕ
deriving Repr, DecidableEq

/-- A commit-detail record: `detail["commit"]["author"]["date"]`
(pre-parsed) and the touched-files list. -/
structure CommitDetail where
  date : DateTime
  files : List FileChange
deriving Repr, DecidableEq

/-- Body of the inner `for file in commit.get("files", [])` loop of
`calculate_code_churn`; the state is the `(churn, commit_count)` pair of
counters. -/
def churnStepFile (acc : List (String × ℕ) × List (String × ℕ))
    (file : FileChange) : List (String × ℕ) × List (String × ℕ) :=
  (counterAdd acc.1 file.filename (file.additions + file.deletions),
   counterAdd acc.2 file.filename 1)

def churnStepCommit (acc : List (String × ℕ) × List (String × ℕ))
    (commit : CommitDetail) : List (String × ℕ) × List (String × ℕ) :=
  commit.files.foldl churnStepFile acc

def calculate_code_churn (commit_details : List CommitDetail) :
    List (String × ℕ) × List (String × ℕ) :=
  commit_details.foldl churnStepCommit ([], [])

structure Hotspot where
  file : String
  churn : ℕ
  commits : ℕ
deriving Repr, DecidableEq

/-- `find_hotspot_files`: `for file in churn` iterates the churn
counter's keys; each entry of the association list is one key with its
churn value. -/
def find_hotspot_files (churn commit_count : List (String × ℕ))
    (churn_threshold : ℕ := 500) (commit_threshold : ℕ := 10) :
    List Hotspot :=
  churn.filterMap (fun e =>
    if churn_threshold ≤ e.2 ∧ commit_threshold ≤ counterGet commit_count e.1
    then some ⟨e.1, e.2, counterGet commit_count e.1⟩
    else none)

/-- Total churn the source accumulates for file `f`: additions plus
deletions summed over every `files` entry named `f` of every commit. -/
def fileChurn (commit_details : List CommitDetail) (f : String) : ℕ :=
  (commit_details.map (fun c =>
    ((c.files.filter (fun fc => fc.filename = f)).map
      (fun fc => fc.additions + fc.deletions)).sum)).sum

/-- Number of `files` entries named `f` the source counts for file `f`
(one per touching commit when a commit lists each file once). -/
def fileTouches (commit_details : List CommitDetail) (f : String) : ℕ :=
  (commit_details.map (fun c =>
    (c.files.filter (fun fc => fc.filename = f)).length)).sum

/-- `commit_dates[k] = v`: plain dict overwrite (not a counter). -/
def datesPut (m : List (String × DateTime)) (k : String) (v : DateTime) :
    List (String × DateTime) :=
  match m with
  | [] => [(k, v)]
  | e :: rest =>
    if e.1 = k then (e.1, v) :: rest else e :: datesPut rest k v

def datesGet (m : List (String × DateTime)) (k : String) :
    Option DateTime :=
  match m.find? (fun e => e.1 = k) with
  | some e => some e.2
  | none => none

/-- Accumulation of `commit_dates` in `fetch_commit_details_parallel`:
for each completed commit detail (in completion order, which is the
order of the input list here) every touched file's entry is overwritten
with that commit's timestamp. -/
def commitDatesOf (commit_details : List CommitDetail) :
    List (String × DateTime) :=
  commit_details.foldl
    (fun m detail =>
      detail.files.foldl
        (fun m2 file => datesPut m2 file.filename detail.date) m)
    []

/-- `find_stale_files(commit_dates, stale_days)` run at instant `now`
(epoch seconds): keeps files whose stored timestamp is before
`now - stale_days` days. -/
def find_stale_files (commit_dates : List (String × DateTime))
    (now : ℤ) (stale_days : ℕ := 180) : List String :=
  commit_dates.filterMap (fun e =>
    if epochSeconds e.2 < now - (stale_days : ℤ) * 86400
    then some e.1 else none)

/-! ## Issue records and `fetch_all_issues`
(`src/Sujan/src/api/issues.py`) -/

/-- A normalized issue as `normalize_issue` produces it (the fields the
backlog metrics read; timestamps pre-parsed, missing `closed_at` is
`none`). -/
structure Issue where
  state : Option String
  created_at : Option DateTime
  closed_at : Option DateTime
deriving Repr, DecidableEq

/-- A raw API item: whether the `"pull_request"` key is present, plus
the normalized payload. -/
structure RawIssue where
  pull_request : Bool
  issue : Issue
deriving Repr, DecidableEq

/-- The `while True` pagination loop of `fetch_all_issues`.  `pages p`
is the server's response to the request for page `p` (`.error` models a
raised `HTTPError`).  `fuel` bounds how many iterations we unfold:
`none` means the loop is still running after `fuel` iterations. -/
def fetchAllIssuesLoop (pages : ℕ → Except Unit (List RawIssue))
    (max_pages : ℕ) : ℕ → ℕ → List Issue → Option (List Issue)
  | 0, _, _ => none
  | fuel + 1, page, issues =>
    match pages page with
    | .error _ => some issues
    | .ok response =>
      if response.isEmpty then some issues
      else
        let issues' := issues ++
          (response.filter (fun i => !i.pull_request)).map RawIssue.issue
        if max_pages < page + 1 then some issues'
        else fetchAllIssuesLoop pages max_pages fuel (page + 1) issues'

def fetch_all_issues (pages : ℕ → Except Unit (List RawIssue))
    (max_pages : ℕ := 40) (fuel : ℕ := max_pages + 1) :
    Option (List Issue) :=
  fetchAllIssuesLoop pages max_pages fuel 1 []

/-- The `while True` loop of `GitHubClient.rest_get_paginated`
(`src/Rohith/repo_metrics/adapters/github/github_client.py`), with the
generator's yields collected into a list.  `none` again means the loop
has not terminated within `fuel` iterations. -/
def restGetPaginatedLoop (pages : ℕ → List ℕ) (page_limit : Option ℕ) :
    ℕ → ℕ → List ℕ → Option (List ℕ)
  | 0, _, _ => none
  | fuel + 1, page, acc =>
    match page_limit with
    | some limit =>
      if limit < page then some acc
      else
        let data := pages page
        if data.isEmpty then some acc
        else restGetPaginatedLoop pages page_limit fuel (page + 1) (acc ++ data)
    | none =>
      let data := pages page
      if data.isEmpty then some acc
      else restGetPaginatedLoop pages page_limit fuel (page + 1) (acc ++ data)

def rest_get_paginated (pages : ℕ → List ℕ) (page_limit : Option ℕ)
    (fuel : ℕ) (page_start : ℕ := 1) : Option (List ℕ) :=
  restGetPaginatedLoop pages page_limit fuel page_start []

/-! ## HTTP retry policies

`GitHubClient._request_with_retries`
(`src/Rohith/repo_metrics/adapters/github/github_client.py`) and
`GitHubClient.get` (`src/Sujan/src/github_client.py`).  The server's
behaviour is a function from the (1-based, resp. 0-based) attempt
number to an outcome; `random.uniform(0, 0.25)` is a `jitter` input
sequence; the result triple is
`(outcome, sleeps performed, number of requests issued)`. -/

inductive HttpOutcome where
  | status (code : ℕ) (retryAfter : Option ℕ)
  | connError
  | timeout
deriving Repr, DecidableEq

inductive RequestError where
  | httpStatus (code : ℕ)
  | connError
  | timeout
  | unexpected
deriving Repr, DecidableEq

/-- `resp.status_code in (429, 500, 502, 503, 504)`. -/
def transientStatus (code : ℕ) : Bool :=
  code = 429 || code = 500 || code = 502 || code = 503 || code = 504

/-- `self.backoff_seconds * (2 ** (attempt - 1)) + random.uniform(0, 0.25)`. -/
def backoffSleep (backoff_seconds : ℚ) (jitter : ℕ → ℚ) (attempt : ℕ) : ℚ :=
  backoff_seconds * 2 ^ (attempt - 1) + jitter attempt

/-- The `for attempt in range(1, max_retries + 1)` body of
`_request_with_retries`; `remaining = max_retries - attempt` (so
`remaining = 0` exactly when `attempt >= max_retries`). -/
def requestLoop (responses : ℕ → HttpOutcome) (jitter : ℕ → ℚ)
    (backoff_seconds : ℚ) :
    ℕ → ℕ → Except RequestError ℕ × List ℚ × ℕ
  | remaining, attempt =>
    match responses attempt with
    | .status code retry_after =>
      if transientStatus code then
        match remaining with
        | 0 => (.error (.httpStatus code), ([], attempt))
        | r + 1 =>
          let sleep_seconds :=
            match retry_after with
            | some s => (s : ℚ)
            | none => backoffSleep backoff_seconds jitter attempt
          let rest := requestLoop responses jitter backoff_seconds r (attempt + 1)
          (rest.1, (sleep_seconds :: rest.2.1, rest.2.2))
      else if 400 ≤ code then (.error (.httpStatus code), ([], attempt))
      else (.ok code, ([], attempt))
    | .connError =>
      match remaining with
      | 0 => (.error .connError, ([], attempt))
      | r + 1 =>
        let rest := requestLoop responses jitter backoff_seconds r (attempt + 1)
        (rest.1, (backoffSleep backoff_seconds jitter attempt :: rest.2.1,
          rest.2.2))
    | .timeout =>
      match remaining with
      | 0 => (.error .timeout, ([], attempt))
      | r + 1 =>
        let rest := requestLoop responses jitter backoff_seconds r (attempt + 1)
        (rest.1, (backoffSleep backoff_seconds jitter attempt :: rest.2.1,
          rest.2.2))

def request_with_retries (responses : ℕ → HttpOutcome) (jitter : ℕ → ℚ)
    (backoff_seconds : ℚ := 1) (max_retries : ℕ := 5) :
    Except RequestError ℕ × List ℚ × ℕ :=
  if max_retries = 0 then (.error .unexpected, ([], 0))
  else requestLoop responses jitter backoff_seconds (max_retries - 1) 1

/-- A response as Sujan's `GitHubClient.get` inspects it: status code,
whether `X-RateLimit-Remaining` is `"0"`, and the digit value of
`X-RateLimit-Reset` when present. -/
inductive SujanOutcome where
  | status (code : ℕ) (rateLimitRemainingZero : Bool) (rateLimitReset : Option ℕ)
  | connError
  | timeout
deriving Repr, DecidableEq

/-- `0.5 * (2 ** attempt)`. -/
def sujanBackoff (attempt : ℕ) : ℚ := (1 / 2) * 2 ^ attempt

/-- The `for attempt in range(max_retries)` body of Sujan's
`GitHubClient.get`.  `times a` is `int(time.time())` during attempt `a`.
Only `Timeout` and `ConnectionError` are caught; `raise_for_status` on
any other 4xx/5xx propagates out of the loop.  A run that exhausts the
range re-raises `last_error` (`.error none` models the `raise None` of
a run that only ever hit the rate-limit `continue`). -/
def sujanLoop (responses : ℕ → SujanOutcome) (times : ℕ → ℤ) :
    ℕ → ℕ → Option RequestError →
    Except (Option RequestError) ℕ × List ℚ × ℕ
  | 0, attempt, last_error => (.error last_error, ([], attempt))
  | r + 1, attempt, last_error =>
    match responses attempt with
    | .status code rl_zero reset =>
      if code = 403 ∧ rl_zero = true then
        match reset with
        | some reset_val =>
          let sleep_seconds : ℚ :=
            min (max 0 ((reset_val : ℚ) - (times attempt : ℚ) + 1)) 60
          let rest := sujanLoop responses times r (attempt + 1) last_error
          (rest.1, (sleep_seconds :: rest.2.1, rest.2.2))
        | none =>
          if 400 ≤ code then (.error (some (.httpStatus code)), ([], attempt + 1))
          else (.ok code, ([], attempt + 1))
      else if 400 ≤ code then (.error (some (.httpStatus code)), ([], attempt + 1))
      else (.ok code, ([], attempt + 1))
    | .connError =>
      let rest := sujanLoop responses times r (attempt + 1) (some .connError)
      (rest.1, (sujanBackoff attempt :: rest.2.1, rest.2.2))
    | .timeout =>
      let rest := sujanLoop responses times r (attempt + 1) (some .timeout)
      (rest.1, (sujanBackoff attempt :: rest.2.1, rest.2.2))

def sujan_get (responses : ℕ → SujanOutcome) (times : ℕ → ℤ)
    (max_retries : ℕ := 3) : Except (Option RequestError) ℕ × List ℚ × ℕ :=
  sujanLoop responses times max_retries 0 none

/-- Whether an outcome takes Rohith's transient (retry) path. -/
def transientOutcome : HttpOutcome → Bool
  | .status code _ => transientStatus code
  | .connError => true
  | .timeout => true

/-- The error Rohith's client raises for an outcome once attempts are
exhausted. -/
def errorOf : HttpOutcome → RequestError
  | .status code _ => .httpStatus code
  | .connError => .connError
  | .timeout => .timeout

/-- The delay Rohith's client sleeps after a transient outcome at a
given attempt: the `Retry-After` header when present and numeric,
otherwise the doubling backoff plus jitter. -/
def sleepOf (backoff_seconds : ℚ) (jitter : ℕ → ℚ) :
    HttpOutcome → ℕ → ℚ
  | .status _ (some s), _ => (s : ℚ)
  | .status _ none, attempt => backoffSleep backoff_seconds jitter attempt
  | .connError, attempt => backoffSleep backoff_seconds jitter attempt
  | .timeout, attempt => backoffSleep backoff_seconds jitter attempt

/-- The sleep sequence of an all-transient run of Rohith's loop
starting at `attempt` with `remaining` retries left. -/
def sleepsFor (responses : ℕ → HttpOutcome) (jitter : ℕ → ℚ)
    (backoff_seconds : ℚ) : ℕ → ℕ → List ℚ
  | _, 0 => []
  | attempt, r + 1 =>
    sleepOf backoff_seconds jitter (responses attempt) attempt ::
      sleepsFor responses jitter backoff_seconds (attempt + 1) r

/-- The error Sujan's client records for a caught exception. -/
def sujanErrorOf : SujanOutcome → RequestError
  | .status code _ _ => .httpStatus code
  | .connError => .connError
  | .timeout => .timeout

/-- The sleep sequence of an all-caught-exception run of Sujan's loop:
`0.5 * 2^attempt` on every attempt, the last included. -/
def sujanSleeps : ℕ → ℕ → List ℚ
  | _, 0 => []
  | attempt, r + 1 => sujanBackoff attempt :: sujanSleeps (attempt + 1) r

/-! ## Commits per day / week / month
(`src/Rohith/repo_metrics/domain/metrics/commits_time_distribution.py`) -/

/-- A commit record carrying `c["commit"]["author"]["date"]`,
pre-parsed (`parse_github_datetime` would raise on anything else, so
every embedded record has a parseable timestamp). -/
structure CommitRec where
  date : DateTime
deriving Repr, DecidableEq

/-- Two-digit zero padding of `strftime`. -/
def pad2 (n : ℕ) : String := if n < 10 then "0" ++ toString n else toString n

/-- `d.strftime("%Y-%m-%d")` (years of interest have four digits). -/
def dayKey (d : DateTime) : String :=
  toString d.year ++ "-" ++ pad2 d.month ++ "-" ++ pad2 d.day

/-- `f-string year-W{isocalendar week}` (the year is the calendar year
and the week number is not zero-padded, exactly as in the source). -/
def weekKey (d : DateTime) : String :=
  toString d.year ++ "-W" ++ toString (isoWeekNumber d.year d.month d.day)

/-- `d.strftime("%Y-%m")`. -/
def monthKey (d : DateTime) : String :=
  toString d.year ++ "-" ++ pad2 d.month

def commits_per_day_week_month (commits : List CommitRec) :
    List (String × ℕ) × List (String × ℕ) × List (String × ℕ) :=
  commits.foldl
    (fun acc c =>
      (counterAdd acc.1 (dayKey c.date) 1,
       counterAdd acc.2.1 (weekKey c.date) 1,
       counterAdd acc.2.2 (monthKey c.date) 1))
    ([], [], [])

/-! ## Issue backlog metrics
(`src/Sujan/src/metrics/issue_backlog_metrics.py`) -/

/-- `round(x, 2)` of Python, over `ℚ` (round-half-up at the second
decimal; Python's float round-half-even differs only at exact ties,
which no claim touches). -/
def rnd2 (x : ℚ) : ℚ := ((round (x * 100) : ℤ) : ℚ) / 100

structure OpenClosedRatioResult where
  open_issues : ℕ
  closed_issues : ℕ
  open_closed_ratio : ℚ
deriving Repr, DecidableEq

def open_closed_ratio (issues : List Issue) : OpenClosedRatioResult :=
  let open_issues := issues.countP (fun i => decide (i.state = some "open"))
  let closed_issues := issues.countP (fun i => decide (i.state = some "closed"))
  let total := open_issues + closed_issues
  let ratio : ℚ :=
    if total ≠ 0 then rnd2 ((open_issues : ℚ) / (total : ℚ)) else 0
  ⟨open_issues, closed_issues, ratio⟩

def average_resolution_time_days (issues : List Issue) : ℚ :=
  let durations := issues.filterMap (fun issue =>
    match issue.state, issue.closed_at, issue.created_at with
    | some s, some closed_at, some created_at =>
      if s = "closed" then
        some (((epochSeconds closed_at - epochSeconds created_at : ℤ) : ℚ)
          / 86400)
      else none
    | _, _, _ => none)
  if durations.isEmpty then 0
  else rnd2 (durations.sum / (durations.length : ℚ))

/-! # Theorems

## Bus factor: supporting lemmas -/

theorem pct_zero (total : ℕ) : pct total 0 = 0 := by
  simp [pct]

theorem pct_self {total : ℕ} (h : total ≠ 0) : pct total total = 100 := by
  have : (total : ℚ) ≠ 0 := Nat.cast_ne_zero.mpr h
  field_simp [pct]

theorem pct_mono (total : ℕ) {x y : ℕ} (h : x ≤ y) :
    pct total x ≤ pct total y := by
  unfold pct
  rcases Nat.eq_zero_or_pos total with h0 | h0
  · simp [h0]
  · have ht : (0 : ℚ) ≤ (total : ℚ) := by positivity
    have hxy : (x : ℚ) ≤ (y : ℚ) := by exact_mod_cast h
    gcongr

theorem prefixCount_zero (l : List (String × ℕ)) : prefixCount l 0 = 0 := by
  simp [prefixCount]

theorem prefixCount_cons_succ (a : String) (c : ℕ)
    (rest : List (String × ℕ)) (i : ℕ) :
    prefixCount ((a, c) :: rest) (i + 1) = c + prefixCount rest i := by
  simp [prefixCount]

theorem prefixCount_length (l : List (String × ℕ)) :
    prefixCount l l.length = totalCommits l := by
  simp [prefixCount, totalCommits]

theorem totalCommits_insertByCountDesc (x : String × ℕ)
    (l : List (String × ℕ)) :
    totalCommits (insertByCountDesc x l) = x.2 + totalCommits l := by
  induction l with
  | nil => simp [insertByCountDesc, totalCommits]
  | cons y ys ih =>
    by_cases h : x.2 < y.2
    · simp [insertByCountDesc, h, totalCommits] at ih ⊢
      omega
    · simp [insertByCountDesc, h, totalCommits]

theorem totalCommits_sortByCountDesc (l : List (String × ℕ)) :
    totalCommits (sortByCountDesc l) = totalCommits l := by
  induction l with
  | nil => rfl
  | cons x xs ih =>
    show totalCommits (insertByCountDesc x (sortByCountDesc xs)) = _
    rw [totalCommits_insertByCountDesc, ih]
    simp [totalCommits]

theorem length_insertByCountDesc (x : String × ℕ) (l : List (String × ℕ)) :
    (insertByCountDesc x l).length = l.length + 1 := by
  induction l with
  | nil => rfl
  | cons y ys ih =>
    by_cases h : x.2 < y.2
    · simp [insertByCountDesc, h, ih]
    · simp [insertByCountDesc, h]

theorem length_sortByCountDesc (l : List (String × ℕ)) :
    (sortByCountDesc l).length = l.length := by
  induction l with
  | nil => rfl
  | cons x xs ih => simp [sortByCountDesc, length_insertByCountDesc, ih]

/-- Once the running ownership has reached the threshold the walk marks
nothing further and leaves the counter and ownership untouched. -/
theorem busWalk_frozen (total : ℕ) (t : ℚ) (l : List (String × ℕ)) :
    ∀ cum bf (op : ℚ), ¬ op < t →
    (busWalk total t l cum bf op).1 = bf ∧
    (busWalk total t l cum bf op).2.1 = op ∧
    (busWalk total t l cum bf op).2.2.length = l.length ∧
    (∀ (i : ℕ) (row : ContributorRow),
      (busWalk total t l cum bf op).2.2[i]? = some row →
      row.in_bus_factor = false) := by
  induction l with
  | nil =>
    intro cum bf op _
    refine ⟨rfl, rfl, rfl, ?_⟩
    intro i row h
    simp [busWalk] at h
  | cons p rest ih =>
    intro cum bf op hop
    obtain ⟨a, c⟩ := p
    have hrec := ih (cum + c) bf op hop
    simp only [busWalk, if_neg hop]
    refine ⟨hrec.1, hrec.2.1, by simp only [List.length_cons, hrec.2.2.1], ?_⟩
    intro i row h
    rcases i with _ | i
    · simp only [List.getElem?_cons_zero, Option.some.injEq] at h
      rw [← h]
    · simp only [List.getElem?_cons_succ] at h
      exact hrec.2.2.2 i row h

/-- While the running ownership is still below the threshold the walk
marks exactly an initial segment of length `k`, where `k` is the first
point at which the cumulative percentage reaches the threshold. -/
theorem busWalk_active (total : ℕ) (t : ℚ) (l : List (String × ℕ)) :
    ∀ cum bf (op : ℚ), op = pct total cum → op < t →
    ∃ k, k ≤ l.length ∧ (l ≠ [] → 1 ≤ k) ∧
      (busWalk total t l cum bf op).1 = bf + k ∧
      (busWalk total t l cum bf op).2.1 = pct total (cum + prefixCount l k) ∧
      (∀ i : ℕ, i < l.length →
        (pct total (cum + prefixCount l i) < t ↔ i < k)) ∧
      (busWalk total t l cum bf op).2.2.length = l.length ∧
      (∀ (i : ℕ) (row : ContributorRow),
        (busWalk total t l cum bf op).2.2[i]? = some row →
        (row.in_bus_factor = true ↔ i < k)) := by
  induction l with
  | nil =>
    intro cum bf op hop hlt
    refine ⟨0, le_refl _, by simp, by simp [busWalk], ?_, ?_, rfl, ?_⟩
    · rw [prefixCount_zero]
      simpa [busWalk] using hop
    · intro i hi
      simp at hi
    · intro i row h
      simp [busWalk] at h
  | cons p rest ih =>
    intro cum bf op hop hlt
    obtain ⟨a, c⟩ := p
    by_cases hc : pct total (cum + c) < t
    · -- threshold still not reached after this contributor
      obtain ⟨k', hk'len, _, hbf, hopn, hiff, hlen, hrows⟩ :=
        ih (cum + c) (bf + 1) (pct total (cum + c)) rfl hc
      refine ⟨k' + 1, by simpa using Nat.succ_le_succ hk'len,
        fun _ => Nat.succ_le_succ (Nat.zero_le _), ?_, ?_, ?_, ?_, ?_⟩
      · simp only [busWalk, if_pos hlt]
        rw [hbf]; omega
      · simp only [busWalk, if_pos hlt]
        rw [hopn, prefixCount_cons_succ, ← Nat.add_assoc]
      · intro i hi
        rcases i with _ | i
        · simp only [prefixCount_zero, Nat.add_zero]
          rw [← hop]
          exact ⟨fun _ => Nat.succ_pos _, fun _ => hlt⟩
        · rw [prefixCount_cons_succ, ← Nat.add_assoc]
          simp only [List.length_cons] at hi
          rw [hiff i (by omega)]
          omega
      · simp only [busWalk, if_pos hlt, List.length_cons, hlen]
      · intro i row h
        simp only [busWalk, if_pos hlt] at h
        rcases i with _ | i
        · simp only [List.getElem?_cons_zero, Option.some.injEq] at h
          rw [← h]
          exact ⟨fun _ => Nat.succ_pos _, fun _ => rfl⟩
        · simp only [List.getElem?_cons_succ] at h
          rw [hrows i row h]
          omega
    · -- this contributor pushes the cumulative share past the threshold
      have hfr := busWalk_frozen total t rest (cum + c) (bf + 1)
        (pct total (cum + c)) hc
      refine ⟨1, by simp, fun _ => le_refl _, ?_, ?_, ?_, ?_, ?_⟩
      · simp only [busWalk, if_pos hlt]
        exact hfr.1
      · simp only [busWalk, if_pos hlt]
        rw [hfr.2.1, prefixCount_cons_succ, prefixCount_zero, Nat.add_zero]
      · intro i hi
        rcases i with _ | i
        · simp only [prefixCount_zero, Nat.add_zero]
          rw [← hop]
          exact ⟨fun _ => Nat.one_pos, fun _ => hlt⟩
        · rw [prefixCount_cons_succ, ← Nat.add_assoc]
          constructor
          · intro hless
            exact absurd (lt_of_le_of_lt
              (pct_mono total (Nat.le_add_right _ _)) hless) hc
          · omega
      · simp only [busWalk, if_pos hlt, List.length_cons, hfr.2.2.1]
      · intro i row h
        simp only [busWalk, if_pos hlt] at h
        rcases i with _ | i
        · simp only [List.getElem?_cons_zero, Option.some.injEq] at h
          rw [← h]
          exact ⟨fun _ => Nat.one_pos, fun _ => rfl⟩
        · simp only [List.getElem?_cons_succ] at h
          rw [hfr.2.2.2 i row h]
          simp

/-- Counting an all-or-nothing prefix marking. -/
theorem countP_marked (rows : List ContributorRow) :
    ∀ k, k ≤ rows.length →
    (∀ (i : ℕ) (row : ContributorRow), rows[i]? = some row →
      (row.in_bus_factor = true ↔ i < k)) →
    rows.countP (fun r => r.in_bus_factor) = k := by
  induction rows with
  | nil =>
    intro k hk _
    simp only [List.length_nil] at hk
    simp only [List.countP_nil]
    omega
  | cons r rest ih =>
    intro k hk hmark
    have h0 := hmark 0 r (by simp)
    have hshift : ∀ (i : ℕ) (row : ContributorRow), rest[i]? = some row →
        (row.in_bus_factor = true ↔ i + 1 < k) := by
      intro i row h
      exact hmark (i + 1) row (by simpa using h)
    rcases k with _ | k
    · have hr : r.in_bus_factor = false := by
        rcases Bool.eq_false_or_eq_true r.in_bus_factor with h | h
        · exact absurd (h0.mp h) (by omega)
        · exact h
      have hrest : rest.countP (fun r => r.in_bus_factor) = 0 := by
        refine ih 0 (Nat.zero_le _) ?_
        intro i row h
        rw [hshift i row h]
        omega
      simp [List.countP_cons, hr, hrest]
    · have hr : r.in_bus_factor = true := by
        rcases Bool.eq_false_or_eq_true r.in_bus_factor with h | h
        · exact h
        · exact absurd (h0.mpr (Nat.succ_pos _)) (by simp [h])
      have hrest : rest.countP (fun r => r.in_bus_factor) = k := by
        refine ih k (by simpa using hk) ?_
        intro i row h
        rw [hshift i row h]
        omega
      simp [List.countP_cons, hr, hrest]

/-- If the sorted pair list were empty the total would be zero. -/
theorem sortByCountDesc_ne_nil {author_commits : List (String × ℕ)}
    (h : 0 < totalCommits author_commits) :
    sortByCountDesc author_commits ≠ [] := by
  intro hnil
  have h2 := totalCommits_sortByCountDesc author_commits
  rw [hnil] at h2
  rw [← h2] at h
  simp [totalCommits] at h

/-- C1.  For every non-empty set of `(author, commit_count)` pairs with
positive total commits (and a threshold percentage in `(0, 100]`,
`50` by default), `calculate_bus_factor_details` marks a contributor
`in_bus_factor` exactly when the cumulative ownership before adding
that contributor — `pct total (prefixCount sorted i)` for the `i`-th
row of the descending sort — was still below the threshold; the
returned `bus_factor` is the count of marked contributors, lies between
1 and the number of contributors, the cumulative ownership at the
bus-factor cutoff (which is the returned `ownership_percent`) is `≥`
the threshold, and the cumulative ownership one contributor earlier is
`<` the threshold. -/
theorem C1_bus_factor_details_correct
    (author_commits : List (String × ℕ)) (threshold_percent : ℚ)
    (htot : 0 < totalCommits author_commits)
    (hpos : 0 < threshold_percent) (hle : threshold_percent ≤ 100) :
    ∃ bf : ℕ,
      (calculate_bus_factor_details author_commits
        threshold_percent).bus_factor = some bf ∧
      1 ≤ bf ∧ bf ≤ author_commits.length ∧
      (∀ (i : ℕ) (row : ContributorRow),
        (calculate_bus_factor_details author_commits
          threshold_percent).contributors[i]? = some row →
        (row.in_bus_factor = true ↔
          pct (totalCommits author_commits)
            (prefixCount (sortByCountDesc author_commits) i)
            < threshold_percent)) ∧
      bf = (calculate_bus_factor_details author_commits
        threshold_percent).contributors.countP
          (fun r => r.in_bus_factor) ∧
      threshold_percent ≤ pct (totalCommits author_commits)
        (prefixCount (sortByCountDesc author_commits) bf) ∧
      pct (totalCommits author_commits)
        (prefixCount (sortByCountDesc author_commits) (bf - 1))
        < threshold_percent ∧
      (calculate_bus_factor_details author_commits
        threshold_percent).ownership_percent =
        some (pct (totalCommits author_commits)
          (prefixCount (sortByCountDesc author_commits) bf)) := by
  set total := totalCommits author_commits with htotdef
  have htne : total ≠ 0 := Nat.pos_iff_ne_zero.mp htot
  set l := sortByCountDesc author_commits with hldef
  have hlne : l ≠ [] := sortByCountDesc_ne_nil htot
  have hllen : l.length = author_commits.length :=
    length_sortByCountDesc author_commits
  have hltot : totalCommits l = total := totalCommits_sortByCountDesc _
  obtain ⟨k, hklen, hkpos, hbf, hop, hiff, hlen, hrows⟩ :=
    busWalk_active total threshold_percent l 0 0 0
      (by rw [pct_zero]) hpos
  have hdetails : calculate_bus_factor_details author_commits
      threshold_percent =
      ⟨total, some (busWalk total threshold_percent l 0 0 0).1,
        some (busWalk total threshold_percent l 0 0 0).2.1,
        (busWalk total threshold_percent l 0 0 0).2.2⟩ := by
    rw [calculate_bus_factor_details]
    simp only [← htotdef, ← hldef, if_neg htne]
  have hk1 : 1 ≤ k := hkpos hlne
  refine ⟨k, ?_, hk1, by omega, ?_, ?_, ?_, ?_, ?_⟩
  · rw [hdetails]
    simp only [hbf, Nat.zero_add]
  · intro i row h
    rw [hdetails] at h
    simp only at h
    have hi : i < l.length := by
      rw [← hlen]
      exact List.getElem?_eq_some_iff.mp h |>.1
    have h2 := hiff i hi
    rw [Nat.zero_add] at h2
    rw [hrows i row h]
    exact h2.symm
  · rw [hdetails]
    simp only
    symm
    apply countP_marked
    · omega
    · exact hrows
  · by_cases hkl : k < l.length
    · have := (hiff k hkl).not
      rw [Nat.zero_add] at this
      exact not_lt.mp (this.mpr (by omega))
    · have hkeq : k = l.length := by omega
      rw [hkeq, prefixCount_length, hltot, pct_self htne]
      exact hle
  · have hi : k - 1 < l.length := by omega
    have := (hiff (k - 1) hi).mpr (by omega)
    rwa [Nat.zero_add] at this
  · rw [hdetails]
    simp only [hop, Nat.zero_add]

/-- Witness for C1: the spec's own end-to-end scenario, three
contributors with commit counts 60/30/10 and threshold 50%. -/
theorem C1_bus_factor_details_correct_witness :
    0 < totalCommits [("A", 60), ("B", 30), ("C", 10)] ∧
    (0 : ℚ) < 50 ∧ (50 : ℚ) ≤ 100 ∧
    ∃ bf : ℕ,
      (calculate_bus_factor_details [("A", 60), ("B", 30), ("C", 10)]
        50).bus_factor = some bf ∧
      1 ≤ bf ∧ bf ≤ [("A", 60), ("B", 30), ("C", 10)].length ∧
      (∀ (i : ℕ) (row : ContributorRow),
        (calculate_bus_factor_details [("A", 60), ("B", 30), ("C", 10)]
          50).contributors[i]? = some row →
        (row.in_bus_factor = true ↔
          pct (totalCommits [("A", 60), ("B", 30), ("C", 10)])
            (prefixCount
              (sortByCountDesc [("A", 60), ("B", 30), ("C", 10)]) i)
            < 50)) ∧
      bf = (calculate_bus_factor_details [("A", 60), ("B", 30), ("C", 10)]
        50).contributors.countP (fun r => r.in_bus_factor) ∧
      (50 : ℚ) ≤ pct (totalCommits [("A", 60), ("B", 30), ("C", 10)])
        (prefixCount (sortByCountDesc [("A", 60), ("B", 30), ("C", 10)]) bf) ∧
      pct (totalCommits [("A", 60), ("B", 30), ("C", 10)])
        (prefixCount (sortByCountDesc [("A", 60), ("B", 30), ("C", 10)])
          (bf - 1)) < 50 ∧
      (calculate_bus_factor_details [("A", 60), ("B", 30), ("C", 10)]
        50).ownership_percent =
        some (pct (totalCommits [("A", 60), ("B", 30), ("C", 10)])
          (prefixCount (sortByCountDesc [("A", 60), ("B", 30), ("C", 10)])
            bf)) :=
  ⟨by decide, by decide, by decide,
    C1_bus_factor_details_correct [("A", 60), ("B", 30), ("C", 10)] 50
      (by decide) (by decide) (by decide)⟩

/-- C2.  For an input with zero total commits (in particular the empty
commit list), both bus-factor calculators return `none` for the bus
factor and the ownership percentage, and
`calculate_bus_factor_details` additionally returns an empty
contributors list — no division is attempted. -/
theorem C2_bus_factor_zero_commits
    (author_commits : List (String × ℕ)) (threshold_percent : ℚ)
    (h : totalCommits author_commits = 0) :
    (calculate_bus_factor_details author_commits
      threshold_percent).bus_factor = none ∧
    (calculate_bus_factor_details author_commits
      threshold_percent).ownership_percent = none ∧
    (calculate_bus_factor_details author_commits
      threshold_percent).contributors = [] ∧
    calculate_bus_factor author_commits threshold_percent = (none, none) := by
  rw [calculate_bus_factor_details, calculate_bus_factor]
  simp [h]

/-- Witness for C2: the empty commit list at the default threshold. -/
theorem C2_bus_factor_zero_commits_witness :
    totalCommits ([] : List (String × ℕ)) = 0 ∧
    ((calculate_bus_factor_details ([] : List (String × ℕ))
      50).bus_factor = none ∧
    (calculate_bus_factor_details ([] : List (String × ℕ))
      50).ownership_percent = none ∧
    (calculate_bus_factor_details ([] : List (String × ℕ))
      50).contributors = [] ∧
    calculate_bus_factor ([] : List (String × ℕ)) 50 = (none, none)) :=
  ⟨by decide, C2_bus_factor_zero_commits [] 50 (by decide)⟩

/-! ## Percentiles and lead-time statistics -/

/-- C3.  `_percentile` returns the first element for `p ≤ 0` and the
last for `p ≥ 100` on any non-empty sorted list; on a single-element
list every percentile is that element; for `0 < p < 100` on a list of
length ≥ 2 both bracketing indices `⌊rank⌋` and `⌈rank⌉` are in range
and the result is the linear interpolation between them weighted by the
fractional part of `rank = p/100·(n−1)`; and on the spec's scenario of
durations `[1,2,3,4,10]` hours the summary has mean 4, median 3 and
p90 = 7.6. -/
theorem C3_percentile_spec :
    (∀ (v : ℚ) (vs : List ℚ) (p : ℚ), p ≤ 0 →
      percentileInterp (v :: vs) p = some v) ∧
    (∀ (v : ℚ) (vs : List ℚ) (p : ℚ), 100 ≤ p →
      percentileInterp (v :: vs) p = (v :: vs).getLast?) ∧
    (∀ v p : ℚ, percentileInterp [v] p = some v) ∧
    (∀ (l : List ℚ) (p : ℚ), 0 < p → p < 100 → 2 ≤ l.length →
      ∃ lo hi : ℚ,
        l[(⌊p / 100 * ((l.length : ℚ) - 1)⌋).toNat]? = some lo ∧
        l[(⌈p / 100 * ((l.length : ℚ) - 1)⌉).toNat]? = some hi ∧
        percentileInterp l p =
          some (lo * (1 - (p / 100 * ((l.length : ℚ) - 1) -
              ((⌊p / 100 * ((l.length : ℚ) - 1)⌋).toNat : ℚ))) +
            hi * (p / 100 * ((l.length : ℚ) - 1) -
              ((⌊p / 100 * ((l.length : ℚ) - 1)⌋).toNat : ℚ)))) ∧
    pr_merge_lead_time_summary
      [⟨some ⟨2024, 1, 1, 0, 0, 0⟩, some ⟨2024, 1, 1, 1, 0, 0⟩⟩,
       ⟨some ⟨2024, 1, 1, 0, 0, 0⟩, some ⟨2024, 1, 1, 2, 0, 0⟩⟩,
       ⟨some ⟨2024, 1, 1, 0, 0, 0⟩, some ⟨2024, 1, 1, 3, 0, 0⟩⟩,
       ⟨some ⟨2024, 1, 1, 0, 0, 0⟩, some ⟨2024, 1, 1, 4, 0, 0⟩⟩,
       ⟨some ⟨2024, 1, 1, 0, 0, 0⟩, some ⟨2024, 1, 1, 10, 0, 0⟩⟩] =
      ⟨5, some 4, some 3, some 4, some (38 / 5), some 1, some 10⟩ := by
  refine ⟨?_, ?_, ?_, ?_, ?_⟩
  · intro v vs p hp
    simp [percentileInterp, hp]
  · intro v vs p hp
    have h0 : ¬ p ≤ 0 := by linarith
    simp [percentileInterp, h0, hp]
  · intro v p
    by_cases h0 : p ≤ 0
    · simp [percentileInterp, h0]
    · by_cases h100 : 100 ≤ p
      · simp [percentileInterp, h0, h100]
      · simp [percentileInterp, h0, h100]
  · intro l p hp0 hp100 hn
    have hne : ¬ l.isEmpty := by
      rcases l with _ | ⟨x, xs⟩ <;> simp_all
    have hn1 : l.length ≠ 1 := by omega
    set rank : ℚ := p / 100 * ((l.length : ℚ) - 1) with hrank
    have hnq : (1 : ℚ) ≤ (l.length : ℚ) - 1 := by
      have : (2 : ℚ) ≤ (l.length : ℚ) := by exact_mod_cast hn
      linarith
    have hrpos : 0 < rank := by
      apply mul_pos (by positivity)
      linarith
    have hrlt : rank < (l.length : ℚ) - 1 := by
      have hlt1 : p / 100 < 1 := by linarith [(div_lt_one (by norm_num : (0:ℚ) < 100)).mpr hp100]
      calc rank = p / 100 * ((l.length : ℚ) - 1) := hrank
        _ < 1 * ((l.length : ℚ) - 1) := by
            apply mul_lt_mul_of_pos_right hlt1
            linarith
        _ = (l.length : ℚ) - 1 := one_mul _
    have hfl0 : 0 ≤ ⌊rank⌋ := Int.floor_nonneg.mpr hrpos.le
    have hfllt : ⌊rank⌋ < (l.length : ℤ) - 1 := by
      have h1 : (⌊rank⌋ : ℚ) ≤ rank := Int.floor_le rank
      have h2 : (⌊rank⌋ : ℚ) < (l.length : ℚ) - 1 := lt_of_le_of_lt h1 hrlt
      exact_mod_cast h2
    have hlowlt : (⌊rank⌋).toNat < l.length := by omega
    have hcl0 : 0 ≤ ⌈rank⌉ := le_trans hfl0 (Int.floor_le_ceil rank)
    have hcllt : ⌈rank⌉ < (l.length : ℤ) := by
      have := Int.ceil_le_floor_add_one rank
      omega
    have hhighlt : (⌈rank⌉).toNat < l.length := by omega
    refine ⟨l[(⌊rank⌋).toNat], l[(⌈rank⌉).toNat], by simp, by simp, ?_⟩
    simp only [percentileInterp, hne, Bool.false_eq_true, if_false,
      if_neg (not_le.mpr hp0), if_neg (not_le.mpr hp100), if_neg hn1,
      ← hrank]
    by_cases heq : (⌊rank⌋).toNat = (⌈rank⌉).toNat
    · have hfc : ⌊rank⌋ = ⌈rank⌉ := by omega
      have hint : (⌊rank⌋ : ℚ) = rank := by
        have h1 : (⌊rank⌋ : ℚ) ≤ rank := Int.floor_le rank
        have h2 : rank ≤ (⌈rank⌉ : ℚ) := Int.le_ceil rank
        rw [← hfc] at h2
        linarith
      have hw : rank - ((⌊rank⌋).toNat : ℚ) = 0 := by
        have : ((⌊rank⌋).toNat : ℚ) = (⌊rank⌋ : ℚ) := by
          exact_mod_cast Int.toNat_of_nonneg hfl0
        rw [this, hint]
        ring
      rw [if_pos heq, hw]
      rw [List.getElem?_eq_getElem hlowlt]
      congr 1
      ring
    · rw [if_neg heq]
      simp [List.getElem?_eq_getElem hlowlt, List.getElem?_eq_getElem hhighlt]
  · have h1 : pr_merge_lead_time_hours
        ⟨some ⟨2024, 1, 1, 0, 0, 0⟩, some ⟨2024, 1, 1, 1, 0, 0⟩⟩ = some 1 := by
      norm_num [pr_merge_lead_time_hours, epochSeconds, rataDie]
    have h2 : pr_merge_lead_time_hours
        ⟨some ⟨2024, 1, 1, 0, 0, 0⟩, some ⟨2024, 1, 1, 2, 0, 0⟩⟩ = some 2 := by
      norm_num [pr_merge_lead_time_hours, epochSeconds, rataDie]
    have h3 : pr_merge_lead_time_hours
        ⟨some ⟨2024, 1, 1, 0, 0, 0⟩, some ⟨2024, 1, 1, 3, 0, 0⟩⟩ = some 3 := by
      norm_num [pr_merge_lead_time_hours, epochSeconds, rataDie]
    have h4 : pr_merge_lead_time_hours
        ⟨some ⟨2024, 1, 1, 0, 0, 0⟩, some ⟨2024, 1, 1, 4, 0, 0⟩⟩ = some 4 := by
      norm_num [pr_merge_lead_time_hours, epochSeconds, rataDie]
    have h5 : pr_merge_lead_time_hours
        ⟨some ⟨2024, 1, 1, 0, 0, 0⟩, some ⟨2024, 1, 1, 10, 0, 0⟩⟩ = some 10 := by
      norm_num [pr_merge_lead_time_hours, epochSeconds, rataDie]
    have hv : (([⟨some ⟨2024, 1, 1, 0, 0, 0⟩, some ⟨2024, 1, 1, 1, 0, 0⟩⟩,
       ⟨some ⟨2024, 1, 1, 0, 0, 0⟩, some ⟨2024, 1, 1, 2, 0, 0⟩⟩,
       ⟨some ⟨2024, 1, 1, 0, 0, 0⟩, some ⟨2024, 1, 1, 3, 0, 0⟩⟩,
       ⟨some ⟨2024, 1, 1, 0, 0, 0⟩, some ⟨2024, 1, 1, 4, 0, 0⟩⟩,
       ⟨some ⟨2024, 1, 1, 0, 0, 0⟩, some ⟨2024, 1, 1, 10, 0, 0⟩⟩] :
        List PullRequest).filterMap pr_merge_lead_time_hours).filter
        (fun lt => !(decide (lt < 0))) = ([1, 2, 3, 4, 10] : List ℚ) := by
      simp only [List.filterMap_cons, h1, h2, h3, h4, h5, List.filterMap_nil]
      norm_num
    have hs : sortValues [1, 2, 3, 4, 10] = ([1, 2, 3, 4, 10] : List ℚ) := by
      norm_num [sortValues, List.insertionSort, List.orderedInsert]
    have h50 : percentileInterp [1, 2, 3, 4, 10] 50 = some 3 := by
      norm_num [percentileInterp]
      rfl
    have h75 : percentileInterp [1, 2, 3, 4, 10] 75 = some 4 := by
      norm_num [percentileInterp]
      rfl
    have h90 : percentileInterp [1, 2, 3, 4, 10] 90 = some (38 / 5) := by
      have hcl : (⌈(18 : ℚ) / 5⌉ : ℤ) = 4 := by
        rw [Int.ceil_eq_iff]
        norm_num
      norm_num [percentileInterp, hcl, show ((3 : ℤ).toNat) = 3 from rfl,
        show ((4 : ℤ).toNat) = 4 from rfl]
    simp only [pr_merge_lead_time_summary, hv, hs]
    norm_num [h50, h75, h90]

/-- Witness for C3: concrete percentile calls at `p = -1`, `p = 120`,
a singleton list, and the interpolation case at `p = 90` on
`[1,2,3,4,10]`. -/
theorem C3_percentile_spec_witness :
    ((-1 : ℚ) ≤ 0 ∧ (100 : ℚ) ≤ 120 ∧ (0 : ℚ) < 90 ∧ (90 : ℚ) < 100 ∧
      2 ≤ [(1 : ℚ), 2, 3, 4, 10].length) ∧
    percentileInterp [(5 : ℚ), 7] (-1) = some 5 ∧
    percentileInterp [(5 : ℚ), 7] 120 = [(5 : ℚ), 7].getLast? ∧
    percentileInterp [(9 : ℚ)] 42 = some 9 ∧
    (∃ lo hi : ℚ,
      [(1 : ℚ), 2, 3, 4, 10][(⌊(90 : ℚ) / 100 *
        ((([(1 : ℚ), 2, 3, 4, 10].length : ℕ) : ℚ) - 1)⌋).toNat]? = some lo ∧
      [(1 : ℚ), 2, 3, 4, 10][(⌈(90 : ℚ) / 100 *
        ((([(1 : ℚ), 2, 3, 4, 10].length : ℕ) : ℚ) - 1)⌉).toNat]? = some hi ∧
      percentileInterp [(1 : ℚ), 2, 3, 4, 10] 90 =
        some (lo * (1 - ((90 : ℚ) / 100 *
            ((([(1 : ℚ), 2, 3, 4, 10].length : ℕ) : ℚ) - 1) -
            ((⌊(90 : ℚ) / 100 *
              ((([(1 : ℚ), 2, 3, 4, 10].length : ℕ) : ℚ) - 1)⌋).toNat : ℚ))) +
          hi * ((90 : ℚ) / 100 *
            ((([(1 : ℚ), 2, 3, 4, 10].length : ℕ) : ℚ) - 1) -
            ((⌊(90 : ℚ) / 100 *
              ((([(1 : ℚ), 2, 3, 4, 10].length : ℕ) : ℚ) - 1)⌋).toNat : ℚ)))) :=
  ⟨⟨by decide, by decide, by decide, by decide, by decide⟩,
    C3_percentile_spec.1 5 [7] (-1) (by decide),
    C3_percentile_spec.2.1 5 [7] 120 (by decide),
    C3_percentile_spec.2.2.1 9 42,
    C3_percentile_spec.2.2.2.1 [1, 2, 3, 4, 10] 90 (by decide) (by decide)
      (by decide)⟩

/-- Filtering after a `filterMap` keeps as many elements as filtering
the original records by the composed predicate. -/
theorem filterMap_filter_length (q : ℚ → Bool) (prs : List PullRequest) :
    ((prs.filterMap pr_merge_lead_time_hours).filter q).length =
    (prs.filter (fun pr =>
      match pr_merge_lead_time_hours pr with
      | some lt => q lt
      | none => false)).length := by
  induction prs with
  | nil => rfl
  | cons pr rest ih =>
    cases h : pr_merge_lead_time_hours pr with
    | none => simp [List.filterMap_cons, List.filter_cons, h, ih]
    | some lt =>
      simp only [List.filterMap_cons, h, List.filter_cons]
      cases hq : q lt <;> simp [hq, ih]

/-- In a `≤`-sorted list every element is bounded by the last one. -/
theorem sorted_le_getLast :
    ∀ {l : List ℚ}, l.Sorted (· ≤ ·) → ∀ (hne : l ≠ []) (x : ℚ),
      x ∈ l → x ≤ l.getLast hne := by
  intro l
  induction l with
  | nil => intro _ hne; exact absurd rfl hne
  | cons a l ih =>
    intro hs hne x hx
    rcases l with _ | ⟨b, l'⟩
    · simp only [List.mem_singleton] at hx
      simp [hx, List.getLast]
    · have hrel := (List.sorted_cons.mp hs).1
      have hs' := (List.sorted_cons.mp hs).2
      have hgl : (a :: b :: l').getLast hne =
          (b :: l').getLast (List.cons_ne_nil _ _) := by
        exact List.getLast_cons (List.cons_ne_nil _ _)
      rcases List.mem_cons.mp hx with hxa | hxl
      · subst hxa
        rw [hgl]
        exact hrel _ (List.getLast_mem _)
      · rw [hgl]
        exact ih hs' (List.cons_ne_nil _ _) x hxl

/-- C4.  `pr_merge_lead_time_summary` excludes every record missing a
timestamp and every negative duration from all statistics: `count`
equals the number of surviving records; when nothing survives every
statistic is null; otherwise the mean is the sum of surviving durations
over their number, the percentile fields are the percentiles of the
sorted surviving durations, and min/max are the least and greatest
surviving durations. -/
theorem C4_lead_time_summary_filters (merged_prs : List PullRequest) :
    (pr_merge_lead_time_summary merged_prs).count =
      (merged_prs.filter (fun pr =>
        match pr_merge_lead_time_hours pr with
        | some lt => decide (0 ≤ lt)
        | none => false)).length ∧
    ((merged_prs.filterMap pr_merge_lead_time_hours).filter
        (fun lt => decide (0 ≤ lt)) = [] →
      pr_merge_lead_time_summary merged_prs =
        ⟨0, none, none, none, none, none, none⟩) ∧
    ((merged_prs.filterMap pr_merge_lead_time_hours).filter
        (fun lt => decide (0 ≤ lt)) ≠ [] →
      (pr_merge_lead_time_summary merged_prs).avg_hours =
        some (((merged_prs.filterMap pr_merge_lead_time_hours).filter
            (fun lt => decide (0 ≤ lt))).sum /
          (((merged_prs.filterMap pr_merge_lead_time_hours).filter
            (fun lt => decide (0 ≤ lt))).length : ℚ)) ∧
      (pr_merge_lead_time_summary merged_prs).median_hours =
        percentileInterp (sortValues
          ((merged_prs.filterMap pr_merge_lead_time_hours).filter
            (fun lt => decide (0 ≤ lt)))) 50 ∧
      (pr_merge_lead_time_summary merged_prs).p75_hours =
        percentileInterp (sortValues
          ((merged_prs.filterMap pr_merge_lead_time_hours).filter
            (fun lt => decide (0 ≤ lt)))) 75 ∧
      (pr_merge_lead_time_summary merged_prs).p90_hours =
        percentileInterp (sortValues
          ((merged_prs.filterMap pr_merge_lead_time_hours).filter
            (fun lt => decide (0 ≤ lt)))) 90 ∧
      (∃ m, (pr_merge_lead_time_summary merged_prs).min_hours = some m ∧
        m ∈ (merged_prs.filterMap pr_merge_lead_time_hours).filter
          (fun lt => decide (0 ≤ lt)) ∧
        ∀ x ∈ (merged_prs.filterMap pr_merge_lead_time_hours).filter
          (fun lt => decide (0 ≤ lt)), m ≤ x) ∧
      (∃ M, (pr_merge_lead_time_summary merged_prs).max_hours = some M ∧
        M ∈ (merged_prs.filterMap pr_merge_lead_time_hours).filter
          (fun lt => decide (0 ≤ lt)) ∧
        ∀ x ∈ (merged_prs.filterMap pr_merge_lead_time_hours).filter
          (fun lt => decide (0 ≤ lt)), x ≤ M)) := by
  have hpred : (fun lt : ℚ => !(decide (lt < 0))) =
      (fun lt : ℚ => decide (0 ≤ lt)) := by
    funext lt
    by_cases h : 0 ≤ lt
    · simp [h, not_lt.mpr h]
    · simp [h, not_le.mp h]
  set dur := (merged_prs.filterMap pr_merge_lead_time_hours).filter
    (fun lt => decide (0 ≤ lt)) with hdur
  have hvals : ((merged_prs.filterMap pr_merge_lead_time_hours).filter
      (fun lt => !(decide (lt < 0)))) = dur := by
    rw [hdur, hpred]
  have hperm : List.Perm (sortValues dur) dur := List.perm_insertionSort _ _
  have hsorted : (sortValues dur).Sorted (· ≤ ·) :=
    List.sorted_insertionSort _ _
  have hlensort : (sortValues dur).length = dur.length :=
    List.length_insertionSort _ _
  have hcount : (merged_prs.filter (fun pr =>
      match pr_merge_lead_time_hours pr with
      | some lt => decide (0 ≤ lt)
      | none => false)).length = dur.length :=
    (filterMap_filter_length (fun lt => decide (0 ≤ lt)) merged_prs).symm
  by_cases hd : dur = []
  · have hempty : sortValues dur = [] := by rw [hd]; rfl
    have hsummary : pr_merge_lead_time_summary merged_prs =
        ⟨0, none, none, none, none, none, none⟩ := by
      rw [pr_merge_lead_time_summary]
      simp only [sortValues] at hempty ⊢
      rw [hvals, hempty]
      rfl
    refine ⟨?_, fun _ => hsummary, fun hne => absurd hd hne⟩
    rw [hsummary, hcount, hd]
    rfl
  · have hsne : sortValues dur ≠ [] := by
      intro h
      apply hd
      have := hperm.length_eq
      rw [h] at this
      exact List.length_eq_zero.mp this.symm
    have hnotempty : (sortValues dur).isEmpty = false := by
      cases h : sortValues dur with
      | nil => exact absurd h hsne
      | cons x xs => rfl
    have hunfold : pr_merge_lead_time_summary merged_prs =
        ⟨(sortValues dur).length,
          some ((sortValues dur).sum / ((sortValues dur).length : ℚ)),
          percentileInterp (sortValues dur) 50,
          percentileInterp (sortValues dur) 75,
          percentileInterp (sortValues dur) 90,
          (sortValues dur).head?,
          (sortValues dur).getLast?⟩ := by
      rw [pr_merge_lead_time_summary]
      simp only [sortValues] at hnotempty ⊢
      rw [hvals, hnotempty]
      rfl
    refine ⟨?_, fun h => absurd h hd, fun _ => ?_⟩
    · rw [hunfold, hcount]
      exact hlensort
    · obtain ⟨m, rest, hcons⟩ := List.exists_cons_of_ne_nil hsne
      rw [hunfold]
      refine ⟨?_, rfl, rfl, rfl, ?_, ?_⟩
      · simp only
        rw [hperm.sum_eq, hlensort]
      · refine ⟨m, ?_, ?_, ?_⟩
        · simp only [hcons, List.head?_cons]
        · exact hperm.mem_iff.mp (by rw [hcons]; exact List.mem_cons_self _ _)
        · intro x hx
          have hx' : x ∈ sortValues dur := hperm.mem_iff.mpr hx
          have hsorted' := hsorted
          rw [hcons] at hx' hsorted'
          rcases List.mem_cons.mp hx' with h | h
          · exact le_of_eq h.symm
          · exact (List.sorted_cons.mp hsorted').1 x h
      · refine ⟨(sortValues dur).getLast hsne, ?_, ?_, ?_⟩
        · simp only
          exact List.getLast?_eq_getLast_of_ne_nil hsne
        · exact hperm.mem_iff.mp (List.getLast_mem hsne)
        · intro x hx
          exact sorted_le_getLast hsorted hsne x (hperm.mem_iff.mpr hx)

/-- Witness for C4: a record with both timestamps missing yields the
all-null summary, and a single surviving record yields its mean. -/
theorem C4_lead_time_summary_filters_witness :
    (pr_merge_lead_time_summary [(⟨none, none⟩ : PullRequest)] =
      ⟨0, none, none, none, none, none, none⟩) ∧
    (pr_merge_lead_time_summary
        [(⟨some ⟨2024, 1, 1, 0, 0, 0⟩, some ⟨2024, 1, 1, 1, 0, 0⟩⟩ :
          PullRequest)]).avg_hours =
      some (((([(⟨some ⟨2024, 1, 1, 0, 0, 0⟩, some ⟨2024, 1, 1, 1, 0, 0⟩⟩ :
            PullRequest)].filterMap pr_merge_lead_time_hours).filter
          (fun lt => decide (0 ≤ lt))).sum) /
        (((([(⟨some ⟨2024, 1, 1, 0, 0, 0⟩, some ⟨2024, 1, 1, 1, 0, 0⟩⟩ :
            PullRequest)].filterMap pr_merge_lead_time_hours).filter
          (fun lt => decide (0 ≤ lt))).length : ℚ))) :=
  ⟨(C4_lead_time_summary_filters [⟨none, none⟩]).2.1 rfl,
    ((C4_lead_time_summary_filters
      [⟨some ⟨2024, 1, 1, 0, 0, 0⟩, some ⟨2024, 1, 1, 1, 0, 0⟩⟩]).2.2
      (by simp [pr_merge_lead_time_hours, epochSeconds])).1⟩

/-! ## Counter lemmas and hotspot detection -/

theorem counterGet_nil (k : String) : counterGet [] k = 0 := rfl

theorem counterGet_cons (e : String × ℕ) (rest : List (String × ℕ))
    (k : String) :
    counterGet (e :: rest) k =
      if e.1 = k then e.2 else counterGet rest k := by
  by_cases h : e.1 = k
  · simp [counterGet, List.find?, h]
  · simp [counterGet, List.find?, h]

theorem counterAdd_cons_eq (e : String × ℕ) (rest : List (String × ℕ))
    (v : ℕ) :
    counterAdd (e :: rest) e.1 v = (e.1, e.2 + v) :: rest := by
  simp [counterAdd]

theorem counterAdd_cons_ne (e : String × ℕ) (rest : List (String × ℕ))
    (k : String) (v : ℕ) (h : ¬ e.1 = k) :
    counterAdd (e :: rest) k v = e :: counterAdd rest k v := by
  simp [counterAdd, h]

theorem counterGet_counterAdd (m : List (String × ℕ)) (k k' : String)
    (v : ℕ) :
    counterGet (counterAdd m k v) k' =
      counterGet m k' + (if k' = k then v else 0) := by
  induction m with
  | nil =>
    show counterGet [(k, v)] k' = counterGet [] k' + _
    rw [counterGet_cons, counterGet_nil]
    by_cases h : k' = k
    · subst h
      simp
    · rw [if_neg (fun hh => h hh.symm), if_neg h]
  | cons e rest ih =>
    by_cases he : e.1 = k
    · rw [← he, counterAdd_cons_eq e rest v, counterGet_cons,
        counterGet_cons]
      by_cases h : e.1 = k'
      · rw [if_pos h, if_pos h, if_pos h.symm]
      · rw [if_neg h, if_neg h, if_neg (fun hh => h hh.symm)]
        omega
    · rw [counterAdd_cons_ne e rest k v he, counterGet_cons, counterGet_cons]
      by_cases h : e.1 = k'
      · rw [if_pos h, if_pos h, if_neg (fun hh => he (h.trans hh))]
        omega
      · rw [if_neg h, if_neg h]
        exact ih

theorem mem_keys_counterAdd (m : List (String × ℕ)) (k k' : String)
    (v : ℕ) :
    k' ∈ (counterAdd m k v).map Prod.fst ↔
      k' ∈ m.map Prod.fst ∨ k' = k := by
  induction m with
  | nil =>
    show k' ∈ [(k, v)].map Prod.fst ↔ _
    simp [eq_comm]
  | cons e rest ih =>
    by_cases he : e.1 = k
    · rw [← he, counterAdd_cons_eq e rest v]
      simp only [List.map_cons, List.mem_cons]
      constructor
      · rintro (h | h)
        · exact Or.inl (Or.inl h)
        · exact Or.inl (Or.inr h)
      · rintro ((h | h) | h)
        · exact Or.inl h
        · exact Or.inr h
        · exact Or.inl h
    · rw [counterAdd_cons_ne e rest k v he]
      simp only [List.map_cons, List.mem_cons, ih]
      tauto

theorem nodup_keys_counterAdd (m : List (String × ℕ)) (k : String) (v : ℕ)
    (h : (m.map Prod.fst).Nodup) :
    ((counterAdd m k v).map Prod.fst).Nodup := by
  induction m with
  | nil =>
    show ([(k, v)].map Prod.fst).Nodup
    simp
  | cons e rest ih =>
    simp only [List.map_cons, List.nodup_cons] at h
    by_cases he : e.1 = k
    · rw [← he, counterAdd_cons_eq e rest v]
      simp only [List.map_cons, List.nodup_cons]
      exact h
    · rw [counterAdd_cons_ne e rest k v he]
      simp only [List.map_cons, List.nodup_cons, mem_keys_counterAdd]
      exact ⟨fun hh => hh.elim h.1 he, ih h.2⟩

theorem counterGet_of_mem_nodup (m : List (String × ℕ))
    (hnd : (m.map Prod.fst).Nodup) (f : String) (v : ℕ)
    (hmem : (f, v) ∈ m) : counterGet m f = v := by
  induction m with
  | nil => simp at hmem
  | cons e rest ih =>
    simp only [List.map_cons, List.nodup_cons] at hnd
    rcases List.mem_cons.mp hmem with h | h
    · rw [← h, counterGet_cons, if_pos rfl]
    · have hne : ¬ e.1 = f := by
        intro hfe
        apply hnd.1
        rw [hfe]
        exact List.mem_map.mpr ⟨(f, v), h, rfl⟩
      rw [counterGet_cons, if_neg hne]
      exact ih hnd.2 h

/-- Effect of one commit's inner file loop on the accumulated churn and
commit-count read at file `f`. -/
theorem churnStepCommit_get (c : CommitDetail)
    (acc : List (String × ℕ) × List (String × ℕ)) (f : String) :
    counterGet (churnStepCommit acc c).1 f =
      counterGet acc.1 f +
        ((c.files.filter (fun fc => fc.filename = f)).map
          (fun fc => fc.additions + fc.deletions)).sum ∧
    counterGet (churnStepCommit acc c).2 f =
      counterGet acc.2 f +
        (c.files.filter (fun fc => fc.filename = f)).length := by
  rw [churnStepCommit]
  induction c.files generalizing acc with
  | nil => simp
  | cons fc rest ih =>
    rw [List.foldl_cons]
    refine ⟨?_, ?_⟩
    · rw [(ih (churnStepFile acc fc)).1]
      simp only [churnStepFile, counterGet_counterAdd]
      by_cases h : fc.filename = f
      · subst h
        simp [List.filter_cons]
        omega
      · have h2 : ¬ f = fc.filename := fun hh => h hh.symm
        simp [List.filter_cons, h, h2]
    · rw [(ih (churnStepFile acc fc)).2]
      simp only [churnStepFile, counterGet_counterAdd]
      by_cases h : fc.filename = f
      · subst h
        simp [List.filter_cons]
        omega
      · have h2 : ¬ f = fc.filename := fun hh => h hh.symm
        simp [List.filter_cons, h, h2]

theorem calculate_code_churn_get (commit_details : List CommitDetail)
    (f : String) :
    counterGet (calculate_code_churn commit_details).1 f =
      fileChurn commit_details f ∧
    counterGet (calculate_code_churn commit_details).2 f =
      fileTouches commit_details f := by
  rw [calculate_code_churn]
  suffices h : ∀ acc : List (String × ℕ) × List (String × ℕ),
      counterGet (commit_details.foldl churnStepCommit acc).1 f =
        counterGet acc.1 f + fileChurn commit_details f ∧
      counterGet (commit_details.foldl churnStepCommit acc).2 f =
        counterGet acc.2 f + fileTouches commit_details f by
    have := h ([], [])
    simpa [counterGet] using this
  induction commit_details with
  | nil => intro acc; simp [fileChurn, fileTouches]
  | cons c rest ih =>
    intro acc
    rw [List.foldl_cons]
    refine ⟨?_, ?_⟩
    · rw [(ih (churnStepCommit acc c)).1, (churnStepCommit_get c acc f).1]
      simp [fileChurn, List.map_cons]
      omega
    · rw [(ih (churnStepCommit acc c)).2, (churnStepCommit_get c acc f).2]
      simp [fileTouches, List.map_cons]
      omega

/-- Keys accumulated by the churn fold are exactly the touched files. -/
theorem churnStepCommit_keys (c : CommitDetail)
    (acc : List (String × ℕ) × List (String × ℕ)) (f : String) :
    f ∈ (churnStepCommit acc c).1.map Prod.fst ↔
      f ∈ acc.1.map Prod.fst ∨ ∃ fc ∈ c.files, fc.filename = f := by
  rw [churnStepCommit]
  induction c.files generalizing acc with
  | nil => simp
  | cons fc rest ih =>
    rw [List.foldl_cons]
    rw [ih (churnStepFile acc fc)]
    simp only [churnStepFile, mem_keys_counterAdd]
    constructor
    · rintro ((h | h) | ⟨fc', hfc', h⟩)
      · exact Or.inl h
      · exact Or.inr ⟨fc, List.mem_cons_self _ _, h.symm⟩
      · exact Or.inr ⟨fc', List.mem_cons_of_mem _ hfc', h⟩
    · rintro (h | ⟨fc', hfc', h⟩)
      · exact Or.inl (Or.inl h)
      · rcases List.mem_cons.mp hfc' with h2 | h2
        · exact Or.inl (Or.inr (by rw [← h, h2]))
        · exact Or.inr ⟨fc', h2, h⟩

theorem calculate_code_churn_keys (commit_details : List CommitDetail)
    (f : String) :
    f ∈ (calculate_code_churn commit_details).1.map Prod.fst ↔
      ∃ c ∈ commit_details, ∃ fc ∈ c.files, fc.filename = f := by
  rw [calculate_code_churn]
  suffices h : ∀ acc : List (String × ℕ) × List (String × ℕ),
      f ∈ (commit_details.foldl churnStepCommit acc).1.map Prod.fst ↔
        f ∈ acc.1.map Prod.fst ∨
          ∃ c ∈ commit_details, ∃ fc ∈ c.files, fc.filename = f by
    have := h ([], [])
    simpa using this
  induction commit_details with
  | nil => intro acc; simp
  | cons c rest ih =>
    intro acc
    rw [List.foldl_cons, ih (churnStepCommit acc c), churnStepCommit_keys]
    constructor
    · rintro ((h | h) | h)
      · exact Or.inl h
      · exact Or.inr ⟨c, List.mem_cons_self _ _, h⟩
      · obtain ⟨c', hc', h⟩ := h
        exact Or.inr ⟨c', List.mem_cons_of_mem _ hc', h⟩
    · rintro (h | ⟨c', hc', h⟩)
      · exact Or.inl (Or.inl h)
      · rcases List.mem_cons.mp hc' with h2 | h2
        · exact Or.inl (Or.inr (h2 ▸ h))
        · exact Or.inr ⟨c', h2, h⟩

theorem nodup_keys_calculate_code_churn (commit_details : List CommitDetail) :
    ((calculate_code_churn commit_details).1.map Prod.fst).Nodup := by
  rw [calculate_code_churn]
  suffices h : ∀ acc : List (String × ℕ) × List (String × ℕ),
      (acc.1.map Prod.fst).Nodup →
      ((commit_details.foldl churnStepCommit acc).1.map Prod.fst).Nodup by
    exact h ([], []) (by simp)
  induction commit_details with
  | nil => intro acc hacc; exact hacc
  | cons c rest ih =>
    intro acc hacc
    rw [List.foldl_cons]
    apply ih
    rw [churnStepCommit]
    clear ih
    induction c.files generalizing acc with
    | nil => exact hacc
    | cons fc rfiles ihf =>
      rw [List.foldl_cons]
      apply ihf
      exact nodup_keys_counterAdd _ _ _ hacc

/-- C5.  A file appears in `find_hotspot_files` applied to the
accumulators of `calculate_code_churn` exactly when it occurs in the
commit details at all, its accumulated churn (additions plus deletions
over every touching entry) reaches the churn threshold, and its
touching-entry count reaches the commit threshold; a file meeting only
one of the two thresholds is absent. -/
theorem C5_hotspot_iff (commit_details : List CommitDetail)
    (churn_threshold commit_threshold : ℕ) (f : String) :
    (∃ h ∈ find_hotspot_files (calculate_code_churn commit_details).1
      (calculate_code_churn commit_details).2 churn_threshold
      commit_threshold, h.file = f) ↔
    ((∃ c ∈ commit_details, ∃ fc ∈ c.files, fc.filename = f) ∧
      churn_threshold ≤ fileChurn commit_details f ∧
      commit_threshold ≤ fileTouches commit_details f) := by
  have hnd := nodup_keys_calculate_code_churn commit_details
  have hget := calculate_code_churn_get commit_details f
  constructor
  · rintro ⟨h, hmem, hfile⟩
    rw [find_hotspot_files] at hmem
    obtain ⟨e, hemem, hsome⟩ := List.mem_filterMap.mp hmem
    by_cases hcond : churn_threshold ≤ e.2 ∧
        commit_threshold ≤ counterGet (calculate_code_churn commit_details).2 e.1
    · rw [if_pos hcond] at hsome
      have hh : h.file = e.1 := by rw [← Option.some.inj hsome]
      have hef : e.1 = f := by rw [← hh, hfile]
      have hepair : (f, e.2) = e := by
        rw [← hef]
      have hkey : f ∈ (calculate_code_churn commit_details).1.map Prod.fst :=
        List.mem_map.mpr ⟨e, hemem, by rw [← hef]⟩
      have hv : counterGet (calculate_code_churn commit_details).1 f = e.2 :=
        counterGet_of_mem_nodup _ hnd f e.2 (hepair ▸ hemem)
      refine ⟨(calculate_code_churn_keys commit_details f).mp hkey, ?_, ?_⟩
      · rw [← hget.1, hv]
        exact hcond.1
      · rw [← hget.2, ← hef]
        exact hcond.2
    · rw [if_neg hcond] at hsome
      exact absurd hsome (by simp)
  · rintro ⟨hocc, hch, htc⟩
    have hkey : f ∈ (calculate_code_churn commit_details).1.map Prod.fst :=
      (calculate_code_churn_keys commit_details f).mpr hocc
    obtain ⟨e, hemem, hef⟩ := List.mem_map.mp hkey
    have hepair : (f, e.2) = e := by
      rw [← hef]
    have hv : counterGet (calculate_code_churn commit_details).1 f = e.2 :=
      counterGet_of_mem_nodup _ hnd f e.2 (hepair ▸ hemem)
    have hcond : churn_threshold ≤ e.2 ∧
        commit_threshold ≤ counterGet (calculate_code_churn commit_details).2 e.1 := by
      constructor
      · rw [← hv, hget.1]
        exact hch
      · rw [hef, hget.2]
        exact htc
    refine ⟨⟨e.1, e.2, counterGet (calculate_code_churn commit_details).2 e.1⟩,
      ?_, hef⟩
    rw [find_hotspot_files]
    exact List.mem_filterMap.mpr ⟨e, hemem, by rw [if_pos hcond]⟩

/-- Witness for C5: a single commit with 600 lines of churn on one file
is a hotspot at thresholds (500, 1) but not at the default commit
threshold. -/
theorem C5_hotspot_iff_witness :
    (∃ h ∈ find_hotspot_files
      (calculate_code_churn
        [⟨⟨2024, 1, 1, 0, 0, 0⟩, [⟨"core.py", 300, 300⟩]⟩]).1
      (calculate_code_churn
        [⟨⟨2024, 1, 1, 0, 0, 0⟩, [⟨"core.py", 300, 300⟩]⟩]).2
      500 1, h.file = "core.py") ∧
    ¬ (∃ h ∈ find_hotspot_files
      (calculate_code_churn
        [⟨⟨2024, 1, 1, 0, 0, 0⟩, [⟨"core.py", 300, 300⟩]⟩]).1
      (calculate_code_churn
        [⟨⟨2024, 1, 1, 0, 0, 0⟩, [⟨"core.py", 300, 300⟩]⟩]).2
      500 10, h.file = "core.py") :=
  ⟨(C5_hotspot_iff [⟨⟨2024, 1, 1, 0, 0, 0⟩, [⟨"core.py", 300, 300⟩]⟩]
      500 1 "core.py").mpr ⟨by decide, by decide, by decide⟩,
    fun hmem =>
      absurd ((C5_hotspot_iff [⟨⟨2024, 1, 1, 0, 0, 0⟩,
        [⟨"core.py", 300, 300⟩]⟩] 500 10 "core.py").mp hmem)
        (by decide)⟩

/-! ## Stale-file accumulation (C6) -/

theorem datesGet_nil (k : String) : datesGet [] k = none := rfl

theorem datesGet_cons (e : String × DateTime) (rest : List (String × DateTime))
    (k : String) :
    datesGet (e :: rest) k =
      if e.1 = k then some e.2 else datesGet rest k := by
  by_cases h : e.1 = k
  · simp [datesGet, List.find?, h]
  · simp [datesGet, List.find?, h]

theorem datesGet_datesPut (m : List (String × DateTime)) (k k' : String)
    (v : DateTime) :
    datesGet (datesPut m k v) k' =
      if k = k' then some v else datesGet m k' := by
  induction m with
  | nil =>
    show datesGet [(k, v)] k' = _
    rw [datesGet_cons, datesGet_nil]
  | cons e rest ih =>
    by_cases he : e.1 = k
    · have : datesPut (e :: rest) k v = (e.1, v) :: rest := by
        simp [datesPut, he]
      rw [this, datesGet_cons, datesGet_cons, he]
      by_cases h : k = k' <;> simp [h]
    · have : datesPut (e :: rest) k v = e :: datesPut rest k v := by
        simp [datesPut, he]
      rw [this, datesGet_cons, datesGet_cons, ih]
      by_cases h : e.1 = k'
      · rw [if_pos h, if_pos h, if_neg (fun hh => he (h.trans hh.symm))]
      · rw [if_neg h, if_neg h]

/-- Effect of one commit's file loop on the `commit_dates` dict: every
touched file is overwritten with this commit's timestamp. -/
theorem datesPut_files_get (date : DateTime) :
    ∀ (files : List FileChange) (m : List (String × DateTime)) (f : String),
    datesGet (files.foldl (fun m2 file => datesPut m2 file.filename date) m) f =
      if files.any (fun fc => fc.filename = f) then some date
      else datesGet m f := by
  intro files
  induction files with
  | nil => intro m f; simp
  | cons fc rest ih =>
    intro m f
    rw [List.foldl_cons, ih]
    by_cases hrest : rest.any (fun fc => decide (fc.filename = f))
    · rw [if_pos hrest, if_pos (by simp [List.any_cons, hrest])]
    · rw [if_neg hrest, datesGet_datesPut]
      by_cases hfc : fc.filename = f
      · rw [if_pos hfc, if_pos (by simp [List.any_cons, hfc])]
      · rw [if_neg hfc, if_neg (by simp [List.any_cons, hfc, hrest])]

/-- The accumulated `commit_dates` reads, at every file, the timestamp
of the **last** commit detail in fold order that touches it (not the
maximum). -/
theorem commitDatesOf_get (commit_details : List CommitDetail) (f : String) :
    datesGet (commitDatesOf commit_details) f =
      (commit_details.reverse.find?
        (fun d => d.files.any (fun fc => fc.filename = f))).map
        CommitDetail.date := by
  rw [commitDatesOf]
  suffices h : ∀ (details : List CommitDetail) (m : List (String × DateTime)),
      datesGet (details.foldl (fun m detail =>
        detail.files.foldl
          (fun m2 file => datesPut m2 file.filename detail.date) m) m) f =
      match details.reverse.find?
          (fun d => d.files.any (fun fc => fc.filename = f)) with
      | some d => some d.date
      | none => datesGet m f by
    rw [h commit_details []]
    cases commit_details.reverse.find?
        (fun d => d.files.any (fun fc => fc.filename = f)) with
    | none => rfl
    | some d => rfl
  intro details
  induction details with
  | nil => intro m; rfl
  | cons d rest ih =>
    intro m
    rw [List.foldl_cons, ih]
    rw [List.reverse_cons, List.find?_append]
    cases hfind : rest.reverse.find?
        (fun d => d.files.any (fun fc => fc.filename = f)) with
    | some d' => rfl
    | none =>
      simp only [Option.orElse_none, Option.none_orElse]
      rw [datesPut_files_get]
      by_cases hd : d.files.any (fun fc => decide (fc.filename = f))
      · rw [if_pos hd]
        simp [List.find?, hd]
      · rw [if_neg hd]
        simp [List.find?, hd]

theorem mem_keys_datesPut (m : List (String × DateTime)) (k k' : String)
    (v : DateTime) :
    k' ∈ (datesPut m k v).map Prod.fst ↔
      k' ∈ m.map Prod.fst ∨ k' = k := by
  induction m with
  | nil =>
    show k' ∈ [(k, v)].map Prod.fst ↔ _
    simp [eq_comm]
  | cons e rest ih =>
    by_cases he : e.1 = k
    · have : datesPut (e :: rest) k v = (e.1, v) :: rest := by
        simp [datesPut, he]
      rw [this]
      simp only [List.map_cons, List.mem_cons]
      constructor
      · rintro (h | h)
        · exact Or.inl (Or.inl h)
        · exact Or.inl (Or.inr h)
      · rintro ((h | h) | h)
        · exact Or.inl h
        · exact Or.inr h
        · exact Or.inl (h.trans he.symm)
    · have : datesPut (e :: rest) k v = e :: datesPut rest k v := by
        simp [datesPut, he]
      rw [this]
      simp only [List.map_cons, List.mem_cons, ih]
      tauto

theorem nodup_keys_datesPut (m : List (String × DateTime)) (k : String)
    (v : DateTime) (h : (m.map Prod.fst).Nodup) :
    ((datesPut m k v).map Prod.fst).Nodup := by
  induction m with
  | nil =>
    show ([(k, v)].map Prod.fst).Nodup
    simp
  | cons e rest ih =>
    simp only [List.map_cons, List.nodup_cons] at h
    by_cases he : e.1 = k
    · have hput : datesPut (e :: rest) k v = (e.1, v) :: rest := by
        simp [datesPut, he]
      rw [hput]
      simp only [List.map_cons, List.nodup_cons]
      exact h
    · have hput : datesPut (e :: rest) k v = e :: datesPut rest k v := by
        simp [datesPut, he]
      rw [hput]
      simp only [List.map_cons, List.nodup_cons, mem_keys_datesPut]
      exact ⟨fun hh => hh.elim h.1 he, ih h.2⟩

theorem nodup_keys_commitDatesOf (commit_details : List CommitDetail) :
    ((commitDatesOf commit_details).map Prod.fst).Nodup := by
  rw [commitDatesOf]
  suffices h : ∀ (details : List CommitDetail) (m : List (String × DateTime)),
      (m.map Prod.fst).Nodup →
      ((details.foldl (fun m detail =>
        detail.files.foldl
          (fun m2 file => datesPut m2 file.filename detail.date) m) m).map
        Prod.fst).Nodup by
    exact h commit_details [] (by simp)
  intro details
  induction details with
  | nil => intro m hm; exact hm
  | cons d rest ih =>
    intro m hm
    rw [List.foldl_cons]
    apply ih
    clear ih
    induction d.files generalizing m with
    | nil => exact hm
    | cons fc rfiles ihf =>
      rw [List.foldl_cons]
      apply ihf
      exact nodup_keys_datesPut _ _ _ hm

theorem datesGet_of_mem_nodup (m : List (String × DateTime))
    (hnd : (m.map Prod.fst).Nodup) (f : String) (v : DateTime)
    (hmem : (f, v) ∈ m) : datesGet m f = some v := by
  induction m with
  | nil => simp at hmem
  | cons e rest ih =>
    simp only [List.map_cons, List.nodup_cons] at hnd
    rcases List.mem_cons.mp hmem with h | h
    · rw [← h, datesGet_cons, if_pos rfl]
    · have hne : ¬ e.1 = f := by
        intro hfe
        apply hnd.1
        rw [hfe]
        exact List.mem_map.mpr ⟨(f, v), h, rfl⟩
      rw [datesGet_cons, if_neg hne]
      exact ih hnd.2 h

theorem datesGet_some_mem (m : List (String × DateTime)) (f : String)
    (v : DateTime) (h : datesGet m f = some v) : (f, v) ∈ m := by
  induction m with
  | nil => simp [datesGet_nil] at h
  | cons e rest ih =>
    rw [datesGet_cons] at h
    by_cases he : e.1 = f
    · rw [if_pos he] at h
      have : e = (f, v) := by
        rcases e with ⟨a, b⟩
        simp only at he
        simp only [Option.some.injEq] at h
        rw [he, h]
      rw [← this]
      exact List.mem_cons_self _ _
    · rw [if_neg he] at h
      exact List.mem_cons_of_mem _ (ih h)

/-- C6 counterexample.  Two commits touch `core.py`, one in January and
one in June 2024.  Folding the June detail first and the January detail
second stores the January timestamp — not the maximum — so the
accumulated timestamp depends on fold order, and with a run time of
2024-07-15 and the default 180-day window the file is reported stale
under one completion order and not under the other. -/
theorem C6_last_seen_counterexample :
    datesGet (commitDatesOf
        [⟨⟨2024, 6, 1, 0, 0, 0⟩, [⟨"core.py", 1, 1⟩]⟩,
         ⟨⟨2024, 1, 1, 0, 0, 0⟩, [⟨"core.py", 1, 1⟩]⟩]) "core.py" =
      some ⟨2024, 1, 1, 0, 0, 0⟩ ∧
    epochSeconds ⟨2024, 1, 1, 0, 0, 0⟩ <
      epochSeconds ⟨2024, 6, 1, 0, 0, 0⟩ ∧
    commitDatesOf
        [⟨⟨2024, 6, 1, 0, 0, 0⟩, [⟨"core.py", 1, 1⟩]⟩,
         ⟨⟨2024, 1, 1, 0, 0, 0⟩, [⟨"core.py", 1, 1⟩]⟩] ≠
      commitDatesOf
        [⟨⟨2024, 1, 1, 0, 0, 0⟩, [⟨"core.py", 1, 1⟩]⟩,
         ⟨⟨2024, 6, 1, 0, 0, 0⟩, [⟨"core.py", 1, 1⟩]⟩] ∧
    "core.py" ∈ find_stale_files (commitDatesOf
        [⟨⟨2024, 6, 1, 0, 0, 0⟩, [⟨"core.py", 1, 1⟩]⟩,
         ⟨⟨2024, 1, 1, 0, 0, 0⟩, [⟨"core.py", 1, 1⟩]⟩])
      (epochSeconds ⟨2024, 7, 15, 0, 0, 0⟩) 180 ∧
    "core.py" ∉ find_stale_files (commitDatesOf
        [⟨⟨2024, 1, 1, 0, 0, 0⟩, [⟨"core.py", 1, 1⟩]⟩,
         ⟨⟨2024, 6, 1, 0, 0, 0⟩, [⟨"core.py", 1, 1⟩]⟩])
      (epochSeconds ⟨2024, 7, 15, 0, 0, 0⟩) 180 := by
  refine ⟨by decide, by decide, by decide, by decide, by decide⟩

/-- C6 (amended).  The per-file timestamp fed into stale-file detection
is the timestamp of the **last** commit detail, in fold order, that
touches the file (the fold overwrites on every touch, so the result is
order-dependent rather than the maximum), and a file is reported stale
exactly when that last-seen timestamp is older than the run time minus
`stale_days` days. -/
theorem C6_stale_last_seen (commit_details : List CommitDetail)
    (f : String) (now : ℤ) (stale_days : ℕ) :
    datesGet (commitDatesOf commit_details) f =
      (commit_details.reverse.find?
        (fun d => d.files.any (fun fc => fc.filename = f))).map
        CommitDetail.date ∧
    (f ∈ find_stale_files (commitDatesOf commit_details) now stale_days ↔
      ∃ dt, datesGet (commitDatesOf commit_details) f = some dt ∧
        epochSeconds dt < now - (stale_days : ℤ) * 86400) := by
  refine ⟨commitDatesOf_get commit_details f, ?_, ?_⟩
  · intro hmem
    rw [find_stale_files] at hmem
    obtain ⟨e, hemem, hsome⟩ := List.mem_filterMap.mp hmem
    by_cases hcond : epochSeconds e.2 < now - (stale_days : ℤ) * 86400
    · rw [if_pos hcond] at hsome
      have hef : e.1 = f := Option.some.inj hsome
      refine ⟨e.2, ?_, hcond⟩
      apply datesGet_of_mem_nodup _ (nodup_keys_commitDatesOf _)
      have : (f, e.2) = e := by rw [← hef]
      rw [this]
      exact hemem
    · rw [if_neg hcond] at hsome
      exact absurd hsome (by simp)
  · rintro ⟨dt, hget, hlt⟩
    have hmem := datesGet_some_mem _ _ _ hget
    rw [find_stale_files]
    exact List.mem_filterMap.mpr ⟨(f, dt), hmem, by rw [if_pos hlt]⟩

/-! ## Pagination termination (C7) -/

/-- C7 counterexample.  `rest_get_paginated` with its default
`page_limit = None` (which is how both call sites in `branches.py`
invoke it) and a server that never returns an empty page is still
running after 200 iterations — there is no configured bound that stops
it. -/
theorem C7_pagination_counterexample :
    rest_get_paginated (fun _ => [0]) none 200 = none := by decide

/-- Helper: `fetch_all_issues` stops within `max_pages + 1 - page`
iterations from any loop state, whatever the server answers. -/
theorem fetchAllIssuesLoop_terminates
    (pages : ℕ → Except Unit (List RawIssue)) (max_pages : ℕ) :
    ∀ (fuel page : ℕ) (acc : List Issue),
      max_pages + 2 ≤ page + fuel → 1 ≤ fuel →
      fetchAllIssuesLoop pages max_pages fuel page acc ≠ none := by
  intro fuel
  induction fuel with
  | zero => intro page acc _ h1; omega
  | succ fuel ih =>
    intro page acc hbound _
    rw [fetchAllIssuesLoop]
    cases hp : pages page with
    | error e => simp
    | ok response =>
      by_cases hresp : response.isEmpty
      · simp [hresp]
      · simp only [hresp, Bool.false_eq_true, if_false]
        by_cases hlim : max_pages < page + 1
        · simp [hlim]
        · simp only [hlim, if_false]
          exact ih (page + 1) _ (by omega) (by omega)

/-- Helper: with a configured `page_limit` the generator loop stops
within `limit + 1 - page` iterations from any state. -/
theorem restGetPaginatedLoop_terminates (pages : ℕ → List ℕ) (limit : ℕ) :
    ∀ (fuel page : ℕ) (acc : List ℕ),
      limit + 2 ≤ page + fuel → 1 ≤ fuel →
      restGetPaginatedLoop pages (some limit) fuel page acc ≠ none := by
  intro fuel
  induction fuel with
  | zero => intro page acc _ h1; omega
  | succ fuel ih =>
    intro page acc hbound _
    rw [restGetPaginatedLoop]
    simp only
    by_cases hlim : limit < page
    · simp [hlim]
    · simp only [hlim, if_false]
      by_cases hdata : (pages page).isEmpty
      · simp [hdata]
      · simp only [hdata, Bool.false_eq_true, if_false]
        exact ih (page + 1) _ (by omega) (by omega)

/-- C7 (amended).  `fetch_all_issues` terminates on the first empty (or
erroring) page and, for any server behaviour, within its `max_pages`
bound.  `rest_get_paginated` terminates on the first empty page and,
when a `page_limit` is configured, within that bound; but with
`page_limit = None` — the default, used by both of its callers — it
never terminates on a server whose pages are never empty. -/
theorem C7_pagination_termination :
    (∀ (pages : ℕ → Except Unit (List RawIssue)) (max_pages : ℕ),
      fetch_all_issues pages max_pages (max_pages + 1) ≠ none) ∧
    (∀ (pages : ℕ → Except Unit (List RawIssue)) (max_pages page : ℕ)
      (acc : List Issue), pages page = .ok [] →
      fetchAllIssuesLoop pages max_pages 1 page acc = some acc) ∧
    (∀ (pages : ℕ → List ℕ) (limit : ℕ),
      rest_get_paginated pages (some limit) (limit + 1) ≠ none) ∧
    (∀ (pages : ℕ → List ℕ) (page_limit : Option ℕ) (fuel page : ℕ)
      (acc : List ℕ), pages page = [] →
      restGetPaginatedLoop pages page_limit (fuel + 1) page acc = some acc) ∧
    (∀ (pages : ℕ → List ℕ) (fuel page : ℕ) (acc : List ℕ),
      (∀ p, pages p ≠ []) →
      restGetPaginatedLoop pages none fuel page acc = none) := by
  refine ⟨?_, ?_, ?_, ?_, ?_⟩
  · intro pages max_pages
    exact fetchAllIssuesLoop_terminates pages max_pages (max_pages + 1) 1 []
      (by omega) (by omega)
  · intro pages max_pages page acc hp
    rw [fetchAllIssuesLoop, hp]
    rfl
  · intro pages limit
    exact restGetPaginatedLoop_terminates pages limit (limit + 1) 1 []
      (by omega) (by omega)
  · intro pages page_limit fuel page acc hp
    cases page_limit with
    | none =>
      rw [restGetPaginatedLoop]
      simp [hp]
    | some limit =>
      rw [restGetPaginatedLoop]
      by_cases hlim : limit < page
      · simp [hlim]
      · simp [hlim, hp]
  · intro pages fuel
    induction fuel with
    | zero => intro page acc _; rfl
    | succ fuel ih =>
      intro page acc hne
      rw [restGetPaginatedLoop]
      have : (pages page).isEmpty = false := by
        cases hp : pages page with
        | nil => exact absurd hp (hne page)
        | cons x xs => rfl
      rw [this]
      simp only [Bool.false_eq_true, if_false]
      exact ih (page + 1) (acc ++ pages page) hne

/-- Witness for C7's amended statement: concrete servers — all-empty,
never-empty with a limit of 3, an empty page mid-stream, and a
never-empty server with no limit still running after 7 iterations. -/
theorem C7_pagination_termination_witness :
    fetch_all_issues (fun _ => .ok []) 40 41 ≠ none ∧
    fetchAllIssuesLoop (fun _ => .ok []) 40 1 1 [] = some [] ∧
    rest_get_paginated (fun _ => [7]) (some 3) 4 ≠ none ∧
    restGetPaginatedLoop (fun _ => []) none (0 + 1) 5 [1, 2] = some [1, 2] ∧
    restGetPaginatedLoop (fun _ => [0]) none 7 1 [] = none :=
  ⟨C7_pagination_termination.1 (fun _ => .ok []) 40,
    C7_pagination_termination.2.1 (fun _ => .ok []) 40 1 [] rfl,
    C7_pagination_termination.2.2.1 (fun _ => [7]) 3,
    C7_pagination_termination.2.2.2.1 (fun _ => []) none 0 5 [1, 2] rfl,
    C7_pagination_termination.2.2.2.2 (fun _ => [0]) 7 1 []
      (fun _ => List.cons_ne_nil 0 [])⟩

/-! ## HTTP retry policies (C8) -/

/-- C8 counterexample.  Sujan's `GitHubClient.get` against a server that
always answers 500 (and likewise 429): `raise_for_status` propagates on
the first attempt — one request, no sleep, no retry — although the
claim says every 5xx/429 triggers a backoff sleep and a retry. -/
theorem C8_retry_counterexample :
    sujan_get (fun _ => .status 500 false none) (fun _ => 0) 3 =
      (.error (some (.httpStatus 500)), ([], 1)) ∧
    sujan_get (fun _ => .status 429 false none) (fun _ => 0) 3 =
      (.error (some (.httpStatus 429)), ([], 1)) := by
  exact ⟨rfl, rfl⟩

theorem requestLoop_used_le (responses : ℕ → HttpOutcome)
    (jitter : ℕ → ℚ) (backoff_seconds : ℚ) :
    ∀ remaining attempt : ℕ,
      (requestLoop responses jitter backoff_seconds remaining
        attempt).2.2 ≤ attempt + remaining := by
  intro remaining
  induction remaining with
  | zero =>
    intro attempt
    rw [requestLoop]
    cases hr : responses attempt with
    | status code ra =>
      cases ht : transientStatus code
      · by_cases h4 : 400 ≤ code
        · simp [ht, h4]
        · simp [ht, h4]
      · simp [ht]
    | connError => simp
    | timeout => simp
  | succ r ih =>
    intro attempt
    rw [requestLoop]
    cases hr : responses attempt with
    | status code ra =>
      cases ht : transientStatus code
      · by_cases h4 : 400 ≤ code
        · simp [ht, h4]
        · simp [ht, h4]
      · simp only [ht, if_true]
        exact le_trans (ih (attempt + 1)) (by omega)
    | connError => exact le_trans (ih (attempt + 1)) (by omega)
    | timeout => exact le_trans (ih (attempt + 1)) (by omega)

theorem requestLoop_all_transient (responses : ℕ → HttpOutcome)
    (jitter : ℕ → ℚ) (backoff_seconds : ℚ) :
    ∀ remaining attempt : ℕ,
      (∀ k, attempt ≤ k → k ≤ attempt + remaining →
        transientOutcome (responses k) = true) →
      requestLoop responses jitter backoff_seconds remaining attempt =
        (.error (errorOf (responses (attempt + remaining))),
          (sleepsFor responses jitter backoff_seconds attempt remaining,
            attempt + remaining)) := by
  intro remaining
  induction remaining with
  | zero =>
    intro attempt htr
    have h0 := htr attempt (le_refl _) (by omega)
    rw [requestLoop]
    cases hr : responses attempt with
    | status code ra =>
      rw [hr] at h0
      simp only [transientOutcome] at h0
      simp [h0, errorOf, sleepsFor, hr]
    | connError => simp [errorOf, sleepsFor, hr]
    | timeout => simp [errorOf, sleepsFor, hr]
  | succ r ih =>
    intro attempt htr
    have h0 := htr attempt (le_refl _) (by omega)
    have hrest := ih (attempt + 1)
      (fun k hk1 hk2 => htr k (by omega) (by omega))
    rw [requestLoop]
    cases hr : responses attempt with
    | status code ra =>
      rw [hr] at h0
      simp only [transientOutcome] at h0
      simp only [h0, if_true]
      rw [hrest]
      have harith : attempt + 1 + r = attempt + (r + 1) := by omega
      rw [harith]
      cases ra with
      | none => simp [sleepsFor, sleepOf, hr]
      | some s => simp [sleepsFor, sleepOf, hr]
    | connError =>
      rw [hrest]
      have harith : attempt + 1 + r = attempt + (r + 1) := by omega
      rw [harith]
      simp [sleepsFor, sleepOf, hr]
    | timeout =>
      rw [hrest]
      have harith : attempt + 1 + r = attempt + (r + 1) := by omega
      rw [harith]
      simp [sleepsFor, sleepOf, hr]

theorem sujanLoop_used_le (responses : ℕ → SujanOutcome) (times : ℕ → ℤ) :
    ∀ (remaining attempt : ℕ) (last_error : Option RequestError),
      (sujanLoop responses times remaining attempt last_error).2.2 ≤
        attempt + remaining := by
  intro remaining
  induction remaining with
  | zero => intro attempt last_error; simp [sujanLoop]
  | succ r ih =>
    intro attempt last_error
    rw [sujanLoop]
    cases hr : responses attempt with
    | status code rl0 reset =>
      by_cases hrl : code = 403 ∧ rl0 = true
      · cases reset with
        | some reset_val =>
          obtain ⟨h403, hrl0⟩ := hrl
          subst h403
          subst hrl0
          exact le_trans (ih (attempt + 1) last_error) (by omega)
        | none =>
          by_cases h4 : 400 ≤ code
          · simp [hrl, h4]
          · simp [hrl, h4]
      · by_cases h4 : 400 ≤ code
        · simp [hrl, h4]
        · simp [hrl, h4]
    | connError => exact le_trans (ih (attempt + 1) (some .connError)) (by omega)
    | timeout => exact le_trans (ih (attempt + 1) (some .timeout)) (by omega)

theorem sujanLoop_all_caught (responses : ℕ → SujanOutcome) (times : ℕ → ℤ) :
    ∀ remaining attempt : ℕ, 1 ≤ remaining →
      (∀ k, attempt ≤ k → k < attempt + remaining →
        responses k = .connError ∨ responses k = .timeout) →
      ∀ last_error : Option RequestError,
      sujanLoop responses times remaining attempt last_error =
        (.error (some (sujanErrorOf (responses (attempt + remaining - 1)))),
          (sujanSleeps attempt remaining, attempt + remaining)) := by
  intro remaining
  induction remaining with
  | zero => intro attempt h1; omega
  | succ r ih =>
    intro attempt _ hcaught last_error
    have h0 := hcaught attempt (le_refl _) (by omega)
    rw [sujanLoop]
    rcases r with _ | r'
    · cases h0 with
      | inl h =>
        rw [h]
        simp [sujanLoop, sujanSleeps, sujanErrorOf, h]
      | inr h =>
        rw [h]
        simp [sujanLoop, sujanSleeps, sujanErrorOf, h]
    · have hrest := ih (attempt + 1) (by omega)
        (fun k hk1 hk2 => hcaught k (by omega) (by omega))
      cases h0 with
      | inl h =>
        rw [h, hrest (some .connError)]
        have harith : attempt + 1 + (r' + 1) - 1 = attempt + (r' + 1 + 1) - 1 := by
          omega
        have harith2 : attempt + 1 + (r' + 1) = attempt + (r' + 1 + 1) := by
          omega
        rw [harith, harith2]
        simp [sujanSleeps, h]
      | inr h =>
        rw [h, hrest (some .timeout)]
        have harith : attempt + 1 + (r' + 1) - 1 = attempt + (r' + 1 + 1) - 1 := by
          omega
        have harith2 : attempt + 1 + (r' + 1) = attempt + (r' + 1 + 1) := by
          omega
        rw [harith, harith2]
        simp [sujanSleeps, h]

/-- C8 (amended).  Rohith's `_request_with_retries` behaves as claimed:
at most `max_retries` requests; a 4xx/5xx status outside
{429, 500, 502, 503, 504} propagates at once with no sleep; an
all-transient run sleeps once per non-final attempt — the `Retry-After`
header value when present, otherwise the doubling backoff
`backoff · 2^(attempt−1)` plus jitter — and propagates the final
attempt's error.  Sujan's `get` retries only connection errors and
timeouts (doubling backoff `0.5 · 2^attempt`, no jitter, a sleep even
after the final attempt) and propagates any HTTP error status,
including 429 and 5xx, on the first response. -/
theorem C8_retry_policy :
    (∀ (responses : ℕ → HttpOutcome) (jitter : ℕ → ℚ)
      (backoff_seconds : ℚ) (max_retries : ℕ),
      (request_with_retries responses jitter backoff_seconds
        max_retries).2.2 ≤ max_retries) ∧
    (∀ (responses : ℕ → HttpOutcome) (jitter : ℕ → ℚ)
      (backoff_seconds : ℚ) (max_retries code : ℕ) (ra : Option ℕ),
      1 ≤ max_retries → responses 1 = .status code ra → 400 ≤ code →
      transientStatus code = false →
      request_with_retries responses jitter backoff_seconds max_retries =
        (.error (.httpStatus code), ([], 1))) ∧
    (∀ (responses : ℕ → HttpOutcome) (jitter : ℕ → ℚ)
      (backoff_seconds : ℚ) (max_retries : ℕ),
      1 ≤ max_retries →
      (∀ k, 1 ≤ k → k ≤ max_retries →
        transientOutcome (responses k) = true) →
      request_with_retries responses jitter backoff_seconds max_retries =
        (.error (errorOf (responses max_retries)),
          (sleepsFor responses jitter backoff_seconds 1 (max_retries - 1),
            max_retries))) ∧
    (∀ (backoff_seconds : ℚ) (jitter : ℕ → ℚ) (attempt : ℕ),
      sleepOf backoff_seconds jitter .connError attempt =
        backoff_seconds * 2 ^ (attempt - 1) + jitter attempt) ∧
    (∀ (responses : ℕ → SujanOutcome) (times : ℕ → ℤ) (max_retries : ℕ),
      (sujan_get responses times max_retries).2.2 ≤ max_retries) ∧
    (∀ (responses : ℕ → SujanOutcome) (times : ℕ → ℤ)
      (max_retries code : ℕ) (rl0 : Bool) (reset : Option ℕ),
      1 ≤ max_retries → responses 0 = .status code rl0 reset →
      400 ≤ code → ¬ (code = 403 ∧ rl0 = true ∧ reset.isSome = true) →
      sujan_get responses times max_retries =
        (.error (some (.httpStatus code)), ([], 1))) ∧
    (∀ (responses : ℕ → SujanOutcome) (times : ℕ → ℤ) (max_retries : ℕ),
      1 ≤ max_retries →
      (∀ k, k < max_retries →
        responses k = .connError ∨ responses k = .timeout) →
      sujan_get responses times max_retries =
        (.error (some (sujanErrorOf (responses (max_retries - 1)))),
          (sujanSleeps 0 max_retries, max_retries))) := by
  refine ⟨?_, ?_, ?_, ?_, ?_, ?_, ?_⟩
  · intro responses jitter backoff_seconds max_retries
    rw [request_with_retries]
    by_cases h0 : max_retries = 0
    · simp [h0]
    · rw [if_neg h0]
      exact le_trans
        (requestLoop_used_le responses jitter backoff_seconds
          (max_retries - 1) 1) (by omega)
  · intro responses jitter backoff_seconds max_retries code ra h1 hresp h4 ht
    rw [request_with_retries, if_neg (by omega)]
    cases hrem : max_retries - 1 with
    | zero =>
      rw [requestLoop, hresp]
      simp [ht, h4]
    | succ m =>
      rw [requestLoop, hresp]
      simp [ht, h4]
  · intro responses jitter backoff_seconds max_retries h1 htrans
    rw [request_with_retries, if_neg (by omega)]
    rw [requestLoop_all_transient responses jitter backoff_seconds
      (max_retries - 1) 1 (fun k hk1 hk2 => htrans k hk1 (by omega))]
    have harith : 1 + (max_retries - 1) = max_retries := by omega
    rw [harith]
  · intro backoff_seconds jitter attempt
    rfl
  · intro responses times max_retries
    rw [sujan_get]
    exact le_trans (sujanLoop_used_le responses times max_retries 0 none)
      (by omega)
  · intro responses times max_retries code rl0 reset h1 hresp h4 hnot
    obtain ⟨m, rfl⟩ : ∃ m, max_retries = m + 1 :=
      ⟨max_retries - 1, by omega⟩
    rw [sujan_get, sujanLoop, hresp]
    by_cases hrl : code = 403 ∧ rl0 = true
    · cases reset with
      | some reset_val =>
        exact absurd ⟨hrl.1, hrl.2, rfl⟩ hnot
      | none => simp [hrl, h4]
    · simp [hrl, h4]
  · intro responses times max_retries h1 hcaught
    rw [sujan_get,
      sujanLoop_all_caught responses times max_retries 0 h1
        (fun k hk1 hk2 => hcaught k (by omega)) none]
    rw [Nat.zero_add]

/-- Witness for C8's amended statement: concrete servers for each
clause — always-timeout, definitive 404, all-connection-error for
Rohith; always-timeout and immediate 500 for Sujan. -/
theorem C8_retry_policy_witness :
    (request_with_retries (fun _ => .timeout) (fun _ => 0) 1 5).2.2 ≤ 5 ∧
    request_with_retries (fun _ => .status 404 none) (fun _ => 0) 1 5 =
      (.error (.httpStatus 404), ([], 1)) ∧
    request_with_retries (fun _ => .connError) (fun _ => 0) 1 3 =
      (.error (errorOf .connError),
        (sleepsFor (fun _ => .connError) (fun _ => 0) 1 1 2, 3)) ∧
    sleepOf 1 (fun _ => 0) .connError 2 = 1 * 2 ^ 1 + 0 ∧
    (sujan_get (fun _ => .timeout) (fun _ => 0) 3).2.2 ≤ 3 ∧
    sujan_get (fun _ => .status 500 false none) (fun _ => 0) 3 =
      (.error (some (.httpStatus 500)), ([], 1)) ∧
    sujan_get (fun _ => .timeout) (fun _ => 0) 3 =
      (.error (some (sujanErrorOf .timeout)), (sujanSleeps 0 3, 3)) :=
  ⟨C8_retry_policy.1 (fun _ => .timeout) (fun _ => 0) 1 5,
    C8_retry_policy.2.1 (fun _ => .status 404 none) (fun _ => 0) 1 5 404
      none (by decide) rfl (by decide) rfl,
    C8_retry_policy.2.2.1 (fun _ => .connError) (fun _ => 0) 1 3
      (by decide) (fun k _ _ => rfl),
    C8_retry_policy.2.2.2.1 1 (fun _ => 0) 2,
    C8_retry_policy.2.2.2.2.1 (fun _ => .timeout) (fun _ => 0) 3,
    C8_retry_policy.2.2.2.2.2.1 (fun _ => .status 500 false none)
      (fun _ => 0) 3 500 false none (by decide) rfl (by decide) (by decide),
    C8_retry_policy.2.2.2.2.2.2 (fun _ => .timeout) (fun _ => 0) 3
      (by decide) (fun k _ => Or.inr rfl)⟩

/-! ## Day / week / month bucketing (C9) -/

theorem sum_counterAdd (m : List (String × ℕ)) (k : String) (v : ℕ) :
    ((counterAdd m k v).map Prod.snd).sum = (m.map Prod.snd).sum + v := by
  induction m with
  | nil => simp [counterAdd]
  | cons e rest ih =>
    by_cases he : e.1 = k
    · rw [← he, counterAdd_cons_eq e rest v]
      simp only [List.map_cons, List.sum_cons]
      omega
    · rw [counterAdd_cons_ne e rest k v he]
      simp only [List.map_cons, List.sum_cons, ih]
      omega

theorem pos_counterAdd (m : List (String × ℕ)) (k : String) (v : ℕ)
    (hv : 1 ≤ v) (hm : ∀ e ∈ m, 1 ≤ e.2) :
    ∀ e ∈ counterAdd m k v, 1 ≤ e.2 := by
  induction m with
  | nil =>
    intro e he
    rcases List.mem_singleton.mp he with rfl
    exact hv
  | cons x rest ih =>
    by_cases hx : x.1 = k
    · rw [← hx, counterAdd_cons_eq x rest v]
      intro e he
      rcases List.mem_cons.mp he with rfl | he
      · have := hm x (List.mem_cons_self _ _)
        simp only
        omega
      · exact hm e (List.mem_cons_of_mem _ he)
    · rw [counterAdd_cons_ne x rest k v hx]
      intro e he
      rcases List.mem_cons.mp he with rfl | he
      · exact hm e (List.mem_cons_self _ _)
      · exact ih (fun e2 he2 => hm e2 (List.mem_cons_of_mem _ he2)) e he

/-- C9.  Each record increments exactly one day key, one week key and
one month key: the sum of the counts in each of the three output maps
equals the number of records; only keys with at least one event are
materialized; and a record dated 2024-03-15 lands under day key
`2024-03-15`, week key `2024-W11` and month key `2024-03`. -/
theorem C9_commits_time_buckets (commits : List CommitRec) :
    ((commits_per_day_week_month commits).1.map Prod.snd).sum =
      commits.length ∧
    ((commits_per_day_week_month commits).2.1.map Prod.snd).sum =
      commits.length ∧
    ((commits_per_day_week_month commits).2.2.map Prod.snd).sum =
      commits.length ∧
    (∀ e ∈ (commits_per_day_week_month commits).1, 1 ≤ e.2) ∧
    (∀ e ∈ (commits_per_day_week_month commits).2.1, 1 ≤ e.2) ∧
    (∀ e ∈ (commits_per_day_week_month commits).2.2, 1 ≤ e.2) ∧
    dayKey ⟨2024, 3, 15, 10, 30, 0⟩ = "2024-03-15" ∧
    weekKey ⟨2024, 3, 15, 10, 30, 0⟩ = "2024-W11" ∧
    monthKey ⟨2024, 3, 15, 10, 30, 0⟩ = "2024-03" ∧
    commits_per_day_week_month [⟨⟨2024, 3, 15, 10, 30, 0⟩⟩] =
      ([("2024-03-15", 1)], [("2024-W11", 1)], [("2024-03", 1)]) := by
  have hmain : ∀ (cs : List CommitRec)
      (acc : List (String × ℕ) × List (String × ℕ) × List (String × ℕ)),
      ((cs.foldl (fun acc c =>
          (counterAdd acc.1 (dayKey c.date) 1,
           counterAdd acc.2.1 (weekKey c.date) 1,
           counterAdd acc.2.2 (monthKey c.date) 1)) acc).1.map
        Prod.snd).sum = (acc.1.map Prod.snd).sum + cs.length ∧
      ((cs.foldl (fun acc c =>
          (counterAdd acc.1 (dayKey c.date) 1,
           counterAdd acc.2.1 (weekKey c.date) 1,
           counterAdd acc.2.2 (monthKey c.date) 1)) acc).2.1.map
        Prod.snd).sum = (acc.2.1.map Prod.snd).sum + cs.length ∧
      ((cs.foldl (fun acc c =>
          (counterAdd acc.1 (dayKey c.date) 1,
           counterAdd acc.2.1 (weekKey c.date) 1,
           counterAdd acc.2.2 (monthKey c.date) 1)) acc).2.2.map
        Prod.snd).sum = (acc.2.2.map Prod.snd).sum + cs.length ∧
      ((∀ e ∈ acc.1, 1 ≤ e.2) → ∀ e ∈ (cs.foldl (fun acc c =>
          (counterAdd acc.1 (dayKey c.date) 1,
           counterAdd acc.2.1 (weekKey c.date) 1,
           counterAdd acc.2.2 (monthKey c.date) 1)) acc).1, 1 ≤ e.2) ∧
      ((∀ e ∈ acc.2.1, 1 ≤ e.2) → ∀ e ∈ (cs.foldl (fun acc c =>
          (counterAdd acc.1 (dayKey c.date) 1,
           counterAdd acc.2.1 (weekKey c.date) 1,
           counterAdd acc.2.2 (monthKey c.date) 1)) acc).2.1, 1 ≤ e.2) ∧
      ((∀ e ∈ acc.2.2, 1 ≤ e.2) → ∀ e ∈ (cs.foldl (fun acc c =>
          (counterAdd acc.1 (dayKey c.date) 1,
           counterAdd acc.2.1 (weekKey c.date) 1,
           counterAdd acc.2.2 (monthKey c.date) 1)) acc).2.2, 1 ≤ e.2) := by
    intro cs
    induction cs with
    | nil => intro acc; exact ⟨by simp, by simp, by simp,
        fun h => h, fun h => h, fun h => h⟩
    | cons c rest ih =>
      intro acc
      rw [List.foldl_cons]
      obtain ⟨ih1, ih2, ih3, ih4, ih5, ih6⟩ := ih
        (counterAdd acc.1 (dayKey c.date) 1,
         counterAdd acc.2.1 (weekKey c.date) 1,
         counterAdd acc.2.2 (monthKey c.date) 1)
      refine ⟨?_, ?_, ?_, ?_, ?_, ?_⟩
      · rw [ih1]
        simp only [sum_counterAdd, List.length_cons]
        omega
      · rw [ih2]
        simp only [sum_counterAdd, List.length_cons]
        omega
      · rw [ih3]
        simp only [sum_counterAdd, List.length_cons]
        omega
      · intro h
        exact ih4 (pos_counterAdd _ _ _ (le_refl _) h)
      · intro h
        exact ih5 (pos_counterAdd _ _ _ (le_refl _) h)
      · intro h
        exact ih6 (pos_counterAdd _ _ _ (le_refl _) h)
  obtain ⟨h1, h2, h3, h4, h5, h6⟩ := hmain commits ([], [], [])
  refine ⟨?_, ?_, ?_, ?_, ?_, ?_, by decide, by decide, by decide, by decide⟩
  · rw [commits_per_day_week_month, h1]
    simp
  · rw [commits_per_day_week_month, h2]
    simp
  · rw [commits_per_day_week_month, h3]
    simp
  · rw [commits_per_day_week_month]
    exact h4 (by simp)
  · rw [commits_per_day_week_month]
    exact h5 (by simp)
  · rw [commits_per_day_week_month]
    exact h6 (by simp)

/-- Witness for C9: the single-commit case dated 2024-03-15. -/
theorem C9_commits_time_buckets_witness :
    ((commits_per_day_week_month
      [⟨⟨2024, 3, 15, 10, 30, 0⟩⟩]).1.map Prod.snd).sum = 1 ∧
    (∀ e ∈ (commits_per_day_week_month
      [⟨⟨2024, 3, 15, 10, 30, 0⟩⟩]).1, 1 ≤ e.2) :=
  ⟨(C9_commits_time_buckets [⟨⟨2024, 3, 15, 10, 30, 0⟩⟩]).1,
    (C9_commits_time_buckets [⟨⟨2024, 3, 15, 10, 30, 0⟩⟩]).2.2.2.1⟩

/-! ## Issue backlog degenerate results (C10) -/

/-- C10.  On an empty issue list `open_closed_ratio` returns the number
zero (not null) for all three fields, and
`average_resolution_time_days` returns the number zero whenever no
issue is closed with both timestamps present — in contrast with the
null degenerate results of the bus-factor and lead-time calculators. -/
theorem C10_issue_backlog_degenerate :
    open_closed_ratio [] = ⟨0, 0, 0⟩ ∧
    (∀ issues : List Issue,
      (∀ i ∈ issues, ¬ (i.state = some "closed" ∧
        i.created_at.isSome = true ∧ i.closed_at.isSome = true)) →
      average_resolution_time_days issues = 0) ∧
    (calculate_bus_factor_details [] 50).bus_factor = none ∧
    (calculate_bus_factor_details [] 50).ownership_percent = none ∧
    (pr_merge_lead_time_summary []).avg_hours = none := by
  refine ⟨by decide, ?_, rfl, rfl, rfl⟩
  intro issues hnone
  rw [average_resolution_time_days]
  have hdur : issues.filterMap (fun issue =>
      match issue.state, issue.closed_at, issue.created_at with
      | some s, some closed_at, some created_at =>
        if s = "closed" then
          some (((epochSeconds closed_at - epochSeconds created_at : ℤ) : ℚ)
            / 86400)
        else none
      | _, _, _ => none) = [] := by
    induction issues with
    | nil => rfl
    | cons i rest ih =>
      rw [List.filterMap_cons]
      have hi := hnone i (List.mem_cons_self _ _)
      have hrest := ih (fun j hj => hnone j (List.mem_cons_of_mem _ hj))
      cases hs : i.state with
      | none => simpa [hs] using hrest
      | some s =>
        cases hcl : i.closed_at with
        | none => simpa [hs, hcl] using hrest
        | some cl =>
          cases hcr : i.created_at with
          | none => simpa [hs, hcl, hcr] using hrest
          | some cr =>
            have hne : ¬ s = "closed" := by
              intro heq
              exact hi ⟨by rw [hs, heq], by rw [hcr]; rfl, by rw [hcl]; rfl⟩
            simpa [hs, hcl, hcr, hne] using hrest
  rw [hdur]
  rfl

/-- Witness for C10: one open issue with no timestamps. -/
theorem C10_issue_backlog_degenerate_witness :
    average_resolution_time_days [⟨some "open", none, none⟩] = 0 :=
  C10_issue_backlog_degenerate.2.1 [⟨some "open", none, none⟩] (by decide)

end RepoMetrics
